import Mathlib

/-
Verification development for the parse-tree visualization tool's Go core
(parser package: lexer.go, grammar.go, and the parser/types sources).

Modelling conventions:
* A Go string that the lexer scans is a byte sequence; it is embedded as
  `List Nat` (each element a byte value 0..255).  The lexer iterates bytes
  (`l.input[l.pos]`), so its character classes are the Go `unicode`
  predicates restricted to the code points 0..255, tabulated below.
* Grammar text and grammar symbols are handled by Go at rune granularity
  (strings.TrimSpace / Fields / ReplaceAll all decode UTF-8), so they are
  embedded as `List Char` (abbrev `GoStr`).  `strGoBytes` re-encodes a
  symbol to its UTF-8 bytes where the parser compares it to token text.
* Go maps (`Productions`, `Terminals`, `NonTerminals`) are embedded as
  insertion-ordered association lists / lists used as sets: map contents
  are deterministic, only Go's iteration order is not, and every property
  proved below is insensitive to that order.
* The recursive-descent engine can diverge in Go (left-recursive
  grammars); the embedding threads an explicit fuel counter, decremented
  when `parseNonTerminal` hands control to its alternatives.  Running out
  of fuel yields a failure result that no claim confuses with a Go
  outcome: claims about successful parses quantify over all fuel values,
  and concrete scenarios use ample fuel.
-/

namespace PTV

/-- Go strings at rune granularity (grammar text, symbols, messages built
by the grammar compiler). -/
abbrev GoStr := List Char

/-- UTF-8 encoding of one code point, as Go would lay it out in a string. -/
def utf8Char (c : Char) : List Nat :=
  let n := c.toNat
  if n < 0x80 then [n]
  else if n < 0x800 then [0xC0 + n / 0x40, 0x80 + n % 0x40]
  else if n < 0x10000 then [0xE0 + n / 0x1000, 0x80 + n / 0x40 % 0x40, 0x80 + n % 0x40]
  else [0xF0 + n / 0x40000, 0x80 + n / 0x1000 % 0x40, 0x80 + n / 0x40 % 0x40, 0x80 + n % 0x40]

/-- Byte sequence of a rune string: how the parser engine sees a grammar
symbol when it compares it with token text (Go compares equal-typed
strings, i.e. their bytes). -/
def strGoBytes (s : GoStr) : List Nat := s.flatMap utf8Char

/-- Byte sequence of a Lean string literal, for writing Go string
constants of the source. -/
def strBytes (s : String) : List Nat := strGoBytes s.data

/-- Decimal digits of a number, as the bytes `fmt.Sprintf("%d", n)` prints. -/
def decBytes (n : Nat) : List Nat := (Nat.repr n).data.map Char.toNat

/-! ## Token model (types.go) -/

/-- TokenType of types.go (the Go constants TOKEN_NUMBER .. TOKEN_UNKNOWN). -/
inductive TokenType : Type where
  | NUMBER | PLUS | MINUS | MULT | DIV | LPAREN | RPAREN | EOF | EPSILON | IDENT | UNKNOWN
  deriving DecidableEq

/-- Token of types.go: {Type, Value, Position}.  `Value` is the byte
content; `Position` the byte offset of the first character. -/
structure Token where
  typ : TokenType
  Value : List Nat
  Position : Nat
  deriving DecidableEq

/-! ## Lexer (lexer.go)

The lexer walks bytes.  `unicode.IsSpace`, `IsDigit`, `IsLetter` applied
to `rune(b)` for a byte b are the Latin-1 restrictions tabulated here:
space = TAB LF VT FF CR SP NEL(0x85) NBSP(0xA0); digit = '0'..'9';
letter = ASCII letters plus 0xAA 0xB5 0xBA 0xC0-0xD6 0xD8-0xF6 0xF8-0xFF. -/

def isSpaceByte (b : Nat) : Bool :=
  b == 9 || b == 10 || b == 11 || b == 12 || b == 13 || b == 32 || b == 133 || b == 160

def isDigitByte (b : Nat) : Bool := decide (48 ≤ b) && decide (b ≤ 57)

def isLetterByte (b : Nat) : Bool :=
  (decide (65 ≤ b) && decide (b ≤ 90)) || (decide (97 ≤ b) && decide (b ≤ 122)) ||
  b == 0xAA || b == 0xB5 || b == 0xBA ||
  (decide (0xC0 ≤ b) && decide (b ≤ 0xD6)) || (decide (0xD8 ≤ b) && decide (b ≤ 0xF6)) ||
  (decide (0xF8 ≤ b) && decide (b ≤ 0xFF))

/-- Identifier continuation bytes of readIdentifier: letters, digits,
underscore, apostrophe (for decorated non-terminals like E'). -/
def identByte (b : Nat) : Bool := isLetterByte b || isDigitByte b || b == 95 || b == 39

/-- Bytes consumed by readNumber: digits and at most one dot.  `hasDec`
is readNumber's hasDecimal flag. -/
def numTail (hasDec : Bool) : List Nat → List Nat
  | [] => []
  | b :: rest =>
    if isDigitByte b then b :: numTail hasDec rest
    else if b == 46 && !hasDec then b :: numTail true rest
    else []

/-- ASCII case folding byte by byte.  On the byte values `identByte`
admits, Go's strings.ToLower produces the ASCII word "number" exactly
when this folding does: non-ASCII identifier bytes never lower-case to
ASCII output. -/
def asciiLower (v : List Nat) : List Nat :=
  v.map fun b => if decide (65 ≤ b) && decide (90 ≥ b) then b + 32 else b

/-- Go's string(ch) for a byte ch: the byte is promoted to a rune (code
point 0..255) and UTF-8 encoded — the byte itself below 0x80, two bytes
for 0x80..0xFF (e.g. string(byte(0xA1)) is the two bytes 0xC2 0xA1). -/
def byteStr (b : Nat) : List Nat :=
  if b < 0x80 then [b] else [0xC0 + b / 0x40, 0x80 + b % 0x40]

/-- The switch of the Tokenize loop on a byte outside every run class:
the six dedicated operator/paren kinds, with UNKNOWN for everything else,
carrying string(ch) of the offending byte. -/
def singleTok (b : Nat) (pos : Nat) : Token :=
  if b == 43 then ⟨.PLUS, [43], pos⟩
  else if b == 45 then ⟨.MINUS, [45], pos⟩
  else if b == 42 then ⟨.MULT, [42], pos⟩
  else if b == 47 then ⟨.DIV, [47], pos⟩
  else if b == 40 then ⟨.LPAREN, [40], pos⟩
  else if b == 41 then ⟨.RPAREN, [41], pos⟩
  else ⟨.UNKNOWN, byteStr b, pos⟩

/-- The Tokenize loop of lexer.go.  One fuel unit per loop iteration;
each iteration consumes at least one input byte, so the fuel supplied by
`Tokenize` (length + 1) never runs out, and even the fuel-out branch ends
the stream with the EOF token exactly as the loop exit does. -/
def tokenizeAux : Nat → List Nat → Nat → List Token
  | 0, _, pos => [⟨.EOF, [], pos⟩]
  | _ + 1, [], pos => [⟨.EOF, [], pos⟩]
  | fuel + 1, b :: rest, pos =>
    if isSpaceByte b then tokenizeAux fuel rest (pos + 1)
    else if isDigitByte b then
      let v := numTail false (b :: rest)
      ⟨.NUMBER, v, pos⟩ :: tokenizeAux fuel (List.drop v.length (b :: rest)) (pos + v.length)
    else if isLetterByte b then
      let v := List.takeWhile identByte (b :: rest)
      let ty := if asciiLower v == strBytes "number" then TokenType.NUMBER else TokenType.IDENT
      ⟨ty, v, pos⟩ :: tokenizeAux fuel (List.drop v.length (b :: rest)) (pos + v.length)
    else
      singleTok b pos :: tokenizeAux fuel rest (pos + 1)

/-- Lexer.Tokenize of lexer.go: scan the whole input and append the EOF
token. -/
def Tokenize (input : List Nat) : List Token := tokenizeAux (input.length + 1) input 0

/-! ## Grammar model (types.go) -/

/-- Production of types.go: a head and its ordered alternatives, each an
ordered symbol sequence. -/
structure Production where
  Head : GoStr
  Body : List (List GoStr)
  deriving DecidableEq

/-- Grammar of types.go.  The Go maps become an insertion-ordered
association list (Productions) and lists used as sets (Terminals,
NonTerminals); every use below is a key lookup or a membership test, so
Go's arbitrary map iteration order is immaterial. -/
structure Grammar where
  Productions : List (GoStr × Production)
  StartSymbol : GoStr
  Terminals : List GoStr
  NonTerminals : List GoStr
  deriving DecidableEq

/-- Lookup in the Productions map. -/
def lookupProd : List (GoStr × Production) → GoStr → Option Production
  | [], _ => none
  | (k, p) :: rest, sym => if k = sym then some p else lookupProd rest sym

/-! ## Grammar compiler (grammar.go) -/

/-- The code points Go's unicode.IsSpace holds for (White_Space): what
strings.TrimSpace trims and strings.Fields splits on. -/
def isGoSpace (c : Char) : Bool :=
  c == ' ' || c == '\t' || c == '\n' || c == '\x0b' || c == '\x0c' || c == '\r' ||
  c.toNat == 0x85 || c.toNat == 0xA0 || c.toNat == 0x1680 ||
  (decide (0x2000 ≤ c.toNat) && decide (c.toNat ≤ 0x200A)) ||
  c.toNat == 0x2028 || c.toNat == 0x2029 || c.toNat == 0x202F ||
  c.toNat == 0x205F || c.toNat == 0x3000

/-- strings.TrimSpace. -/
def goTrim (s : GoStr) : GoStr := ((s.dropWhile isGoSpace).reverse.dropWhile isGoSpace).reverse

/-- strings.Split on a one-rune separator (used with newline and with the
pipe character). -/
def splitOnChar (sep : Char) : GoStr → List GoStr
  | [] => [[]]
  | c :: rest =>
    match splitOnChar sep rest with
    | [] => [[]]
    | w :: ws => if c = sep then [] :: w :: ws else (c :: w) :: ws

/-- The character class the regular expression `\s` matches in Go's RE2
(ASCII only: TAB LF FF CR SP). -/
def reSpace (c : Char) : Bool := c == ' ' || c == '\t' || c == '\n' || c == '\x0c' || c == '\r'

/-- Match of the regexp branch `\s*->` anchored at the start of `s`, and
the remainder after it.  A greedy `\s*` with backtracking succeeds
exactly when `->` follows the maximal space run: any shorter run leaves a
space character where `-` is required. -/
def dropArrowA (s : GoStr) : Option GoStr :=
  match s.dropWhile reSpace with
  | '-' :: '>' :: rest => some rest
  | _ => none

/-- Match of the regexp branch `→\s*` anchored at the start of `s` (the
greedy `\s*` consumes the maximal following space run). -/
def dropArrowB (s : GoStr) : Option GoStr :=
  match s with
  | '→' :: rest => some (rest.dropWhile reSpace)
  | _ => none

/-- Leftmost-first match of `\s*->|→\s*` (Go's regexp semantics: earliest
start position; at equal positions the left alternative first), returned
as regexp.Split(line, 2) would split: the text before the match and the
text after it, or none when the pattern does not occur. -/
def findArrow : GoStr → Option (GoStr × GoStr)
  | [] => none
  | c :: rest =>
    match dropArrowA (c :: rest) with
    | some after => some ([], after)
    | none =>
      match dropArrowB (c :: rest) with
      | some after => some ([], after)
      | none =>
        match findArrow rest with
        | some (before, after) => some (c :: before, after)
        | none => none

/-- strings.ReplaceAll: leftmost, non-overlapping.  One fuel unit per
examined character; `replaceAll` supplies the input length, which
suffices for the non-empty patterns the source uses. -/
def replaceAllAux (pat rep : GoStr) : Nat → GoStr → GoStr
  | _, [] => []
  | 0, s => s
  | fuel + 1, c :: rest =>
    if pat.isPrefixOf (c :: rest) then rep ++ replaceAllAux pat rep fuel (List.drop pat.length (c :: rest))
    else c :: replaceAllAux pat rep fuel rest

/-- strings.ReplaceAll of grammar.go's parseSymbols. -/
def replaceAll (s pat rep : GoStr) : GoStr := replaceAllAux pat rep s.length s

/-- strings.Fields: the maximal runs of non-space characters. -/
def fieldsAux : GoStr → GoStr → List GoStr
  | [], acc => if acc = [] then [] else [acc.reverse]
  | c :: rest, acc =>
    if isGoSpace c then (if acc = [] then fieldsAux rest [] else acc.reverse :: fieldsAux rest [])
    else fieldsAux rest (c :: acc)

/-- strings.Fields of grammar.go's parseSymbols. -/
def goFields (s : GoStr) : List GoStr := fieldsAux s []

/-- parseSymbols of grammar.go: pad every occurrence of the epsilon rune
and of the substring "epsilon" with spaces around a single ε, then split
on whitespace (the final TrimSpace/non-empty filter of the Go loop is a
no-op on Fields output but is mirrored). -/
def parseSymbols (body : GoStr) : List GoStr :=
  let b1 := replaceAll body "ε".data " ε ".data
  let b2 := replaceAll b1 "epsilon".data " ε ".data
  let parts := goFields b2
  (parts.map goTrim).filter (· ≠ [])

/-- Set insertion for the NonTerminals map (only membership is ever
read). -/
def insertSet (xs : List GoStr) (x : GoStr) : List GoStr := if xs.contains x then xs else xs ++ [x]

/-- Map insertion for Productions: appending bodies to an existing
production (the multi-line accumulation of grammar.go) or registering a
new one. -/
def insertProd : List (GoStr × Production) → GoStr → List (List GoStr) → List (GoStr × Production)
  | [], head, bodies => [(head, ⟨head, bodies⟩)]
  | (k, p) :: rest, head, bodies =>
    if k = head then (k, ⟨p.Head, p.Body ++ bodies⟩) :: rest
    else (k, p) :: insertProd rest head bodies

/-- The alternatives of one line's body: split on the pipe, trim, skip
empties, keep every parseSymbols result with at least one symbol. -/
def lineBodies (after : GoStr) : List (List GoStr) :=
  ((splitOnChar '|' after).map goTrim).filterMap fun alt =>
    if alt = [] then none
    else if (parseSymbols alt).length > 0 then some (parseSymbols alt) else none

/-- One iteration of ParseGrammar's line loop.  The Bool is the isFirst
flag selecting the start symbol; a processed head line always leaves it
false (Go clears it inside the line's if).  Comment lines, lines without
an arrow and lines with an empty head are skipped. -/
def processLine (acc : Grammar × Bool) (line0 : GoStr) : Grammar × Bool :=
  if goTrim line0 = [] ∨ "//".data.isPrefixOf (goTrim line0) ∨
      "#".data.isPrefixOf (goTrim line0) then acc
  else
    match findArrow (goTrim line0) with
    | none => acc
    | some (before, after) =>
      if goTrim before = [] then acc
      else
        ({ Productions := insertProd acc.1.Productions (goTrim before) (lineBodies after)
           StartSymbol := if acc.2 then goTrim before else acc.1.StartSymbol
           Terminals := acc.1.Terminals
           NonTerminals := insertSet acc.1.NonTerminals (goTrim before) },
         false)

/-- The terminal-classification pass at the end of ParseGrammar: every
body symbol that is not a registered non-terminal and not an epsilon
marker (possibly listed more than once; the Go map de-duplicates, and
only membership is ever read). -/
def collectTerminals (g : Grammar) : List GoStr :=
  g.Productions.flatMap fun kp =>
    kp.2.Body.flatMap fun alt =>
      alt.filter fun symbol =>
        !(g.NonTerminals.contains symbol) && symbol != "ε".data && symbol != "epsilon".data

/-- ParseGrammar of grammar.go.  The Go function's error return is always
nil, so the embedding returns the grammar directly. -/
def ParseGrammar (input : String) : Grammar :=
  let lines := splitOnChar '\n' input.data
  let init : Grammar := ⟨[], [], [], []⟩
  let g := (lines.foldl processLine (init, true)).1
  { g with Terminals := collectTerminals g }

/-- GetDefaultArithmeticGrammar of grammar.go. -/
def GetDefaultArithmeticGrammar : String :=
  "E  -> T E'\nE' -> + T E' | - T E' | ε\nT  -> F T'\nT' -> * F T' | / F T' | ε\nF  -> ( E ) | number"

/-- ValidationResult of types.go. -/
structure ValidationResult where
  Valid : Bool
  Errors : List GoStr
  Warnings : List GoStr
  deriving DecidableEq

/-- The undefined-non-terminal errors ValidateGrammar appends: one per
body occurrence of a symbol registered as a non-terminal but absent from
the Productions map. -/
def undefinedErrors (g : Grammar) : List GoStr :=
  g.Productions.flatMap fun kp =>
    kp.2.Body.flatMap fun alt =>
      alt.filterMap fun symbol =>
        if g.NonTerminals.contains symbol && (lookupProd g.Productions symbol).isNone
        then some ("Undefined non-terminal: ".data ++ symbol) else none

/-- The direct-left-recursion warnings of ValidateGrammar. -/
def leftRecWarnings (g : Grammar) : List GoStr :=
  g.Productions.flatMap fun kp =>
    kp.2.Body.filterMap fun alt =>
      match alt with
      | [] => none
      | first :: _ =>
        if first = kp.2.Head
        then some ("Potential left recursion in production: ".data ++ kp.2.Head ++
          " -> ".data ++ List.intercalate " ".data alt)
        else none

/-- ValidateGrammar of grammar.go.  Valid starts true and is cleared by
each undefined-non-terminal error; the two start-symbol checks return
early. -/
def ValidateGrammar (g : Grammar) : ValidationResult :=
  if g.StartSymbol = [] then ⟨false, ["No start symbol defined".data], []⟩
  else if (lookupProd g.Productions g.StartSymbol).isNone then
    ⟨false, ["Start symbol has no productions".data], []⟩
  else
    let errs := undefinedErrors g
    ⟨errs.isEmpty, errs, leftRecWarnings g⟩

/-! ## Tree, step and result model (types.go) -/

mutual
/-- TreeNode of types.go: {ID, Label, Children, IsTerminal}.  The Value
field of the Go struct is never assigned anywhere in the source (it stays
the empty string) and is omitted.  Children are a mutually inductive list
so every tree function is structurally recursive. -/
inductive TreeNode : Type where
  | mk (ID : Int) (Label : List Nat) (Children : TreeList) (IsTerminal : Bool)
  deriving DecidableEq
/-- An owned list of child TreeNodes. -/
inductive TreeList : Type where
  | nil
  | cons (hd : TreeNode) (tl : TreeList)
  deriving DecidableEq
end

def TreeNode.ID : TreeNode → Int
  | .mk i _ _ _ => i

def TreeNode.Label : TreeNode → List Nat
  | .mk _ l _ _ => l

def TreeNode.Children : TreeNode → TreeList
  | .mk _ _ cs _ => cs

def TreeNode.IsTerminal : TreeNode → Bool
  | .mk _ _ _ b => b

/-- Assignment to node.Children (the Go engine mutates the node before
returning it). -/
def TreeNode.setChildren : TreeNode → TreeList → TreeNode
  | .mk i l _ b, cs => .mk i l cs b

def appendTL : TreeList → TreeList → TreeList
  | .nil, ys => ys
  | .cons x xs, ys => .cons x (appendTL xs ys)

/-- Step of types.go: {Action, Description, NodeID, ParentID}.  The Tree
field of the Go struct is never assigned by createNode (it stays nil) and
is omitted. -/
structure Step where
  Action : List Nat
  Description : List Nat
  NodeID : Int
  ParentID : Int
  deriving DecidableEq

/-- ParseResult of types.go.  A nil tree pointer is none; the Error
field's zero value is the empty string. -/
structure ParseResult where
  Success : Bool
  Tree : Option TreeNode
  Steps : List Step
  Error : List Nat
  Tokens : List Token
  deriving DecidableEq

/-! ## Parser engine (parser.go / part_000) -/

/-- Parser of parser.go: the grammar plus the per-invocation mutable
state (token slice, cursor, node-id counter, step log, recording flag). -/
structure Parser where
  grammar : Grammar
  tokens : List Token
  pos : Nat
  nodeID : Int
  steps : List Step
  recordSteps : Bool

/-- NewParser of parser.go. -/
def NewParser (g : Grammar) : Parser := ⟨g, [], 0, 0, [], false⟩

/-- Parser.current: the token under the cursor, or a synthetic EOF token
when the cursor is past the slice (the Go fallback builds it with
Position = p.pos). -/
def Parser.current (p : Parser) : Token :=
  if h : p.pos < p.tokens.length then p.tokens[p.pos] else ⟨.EOF, [], p.pos⟩

/-- Parser.advance: move the cursor forward, capped at the slice length. -/
def Parser.advance (p : Parser) : Parser :=
  if p.pos < p.tokens.length then { p with pos := p.pos + 1 } else p

/-- buildStepDescription of parser.go. -/
def buildStepDescription (label : List Nat) (isTerminal : Bool) : List Nat :=
  if isTerminal then
    if label = strBytes "ε" then strBytes "Match epsilon (empty string)"
    else strBytes "Match terminal '" ++ label ++ strBytes "'"
  else strBytes "Expand non-terminal <" ++ label ++ strBytes ">"

/-- createNode of parser.go: pre-increment the id counter, build the
node, and append an "add" step when recording. -/
def Parser.createNode (p : Parser) (label : List Nat) (isTerminal : Bool) (parentID : Int) :
    TreeNode × Parser :=
  (TreeNode.mk (p.nodeID + 1) label .nil isTerminal,
   if p.recordSteps then
     { p with
       nodeID := p.nodeID + 1
       steps := p.steps ++
         [⟨strBytes "add", buildStepDescription label isTerminal, p.nodeID + 1, parentID⟩] }
   else { p with nodeID := p.nodeID + 1 })

/-- Parser.isTerminal of parser.go: the grammar's terminal set, plus the
built-in terminals. -/
def Parser.isTerminal (p : Parser) (symbol : GoStr) : Bool :=
  p.grammar.Terminals.contains symbol ||
    ["number".data, "+".data, "-".data, "*".data, "/".data,
     "(".data, ")".data, "ε".data, "epsilon".data].contains symbol

/-- The switch of matchTerminal: the fixed punctuation/number symbols are
compared by token kind, any other symbol by exact text equality with the
token's bytes. -/
def terminalMatched (symbol : GoStr) (token : Token) : Bool :=
  if symbol = "number".data then token.typ == .NUMBER
  else if symbol = "+".data then token.typ == .PLUS
  else if symbol = "-".data then token.typ == .MINUS
  else if symbol = "*".data then token.typ == .MULT
  else if symbol = "/".data then token.typ == .DIV
  else if symbol = "(".data then token.typ == .LPAREN
  else if symbol = ")".data then token.typ == .RPAREN
  else token.Value == strGoBytes symbol

/-- matchTerminal of parser.go.  On a match it creates a terminal node
labelled with the actual token text and advances the cursor; on a
mismatch it fails naming the expected symbol, the found text and its
position, leaving the state untouched.  (The Go displayValue
reassignment under symbol == "number" is the identity and is not
mirrored.) -/
def Parser.matchTerminal (p : Parser) (symbol : GoStr) (parentID : Int) :
    Except (List Nat) TreeNode × Parser :=
  if terminalMatched symbol p.current then
    (.ok (p.createNode p.current.Value true parentID).1,
     (p.createNode p.current.Value true parentID).2.advance)
  else
    (.error (strBytes "expected '" ++ strGoBytes symbol ++ strBytes "', got '" ++
      p.current.Value ++ strBytes "' at position " ++ decBytes p.current.Position), p)

/-- parseAlternative of parser.go, parameterised by the callback used for
nested non-terminals (instantiated with `parseNonTerminal fuel` so the
engine is structurally recursive on fuel).  Symbols are expanded left to
right: the epsilon marker synthesises an ε leaf, classified terminals go
to matchTerminal, everything else recurses; the first failure aborts the
alternative. -/
def parseAlternativeAux (recNT : GoStr → Int → Parser → Except (List Nat) TreeNode × Parser) :
    List GoStr → Int → Parser → Except (List Nat) TreeList × Parser
  | [], _, p => (.ok .nil, p)
  | symbol :: rest, parentID, p =>
    if symbol = "ε".data ∨ symbol = "epsilon".data then
      match parseAlternativeAux recNT rest parentID
          (p.createNode (strBytes "ε") true parentID).2 with
      | (.ok children, p2) =>
        (.ok (.cons (p.createNode (strBytes "ε") true parentID).1 children), p2)
      | (.error e, p2) => (.error e, p2)
    else if p.isTerminal symbol then
      match p.matchTerminal symbol parentID with
      | (.ok node, p1) =>
        match parseAlternativeAux recNT rest parentID p1 with
        | (.ok children, p2) => (.ok (.cons node children), p2)
        | (.error e, p2) => (.error e, p2)
      | (.error e, p1) => (.error e, p1)
    else
      match recNT symbol parentID p with
      | (.ok node, p1) =>
        match parseAlternativeAux recNT rest parentID p1 with
        | (.ok children, p2) => (.ok (.cons node children), p2)
        | (.error e, p2) => (.error e, p2)
      | (.error e, p1) => (.error e, p1)

/-- The alternative loop of parseNonTerminal: snapshot cursor and
step-log length, attempt the alternative, commit on success, otherwise
restore the cursor, truncate the step log to the snapshot length and try
the next alternative; when all alternatives are exhausted, fail with the
no-matching-production error (the Go message interpolates the cursor
index and the token text under it). -/
def tryAlternativesAux (recNT : GoStr → Int → Parser → Except (List Nat) TreeNode × Parser)
    (symbol : GoStr) (node : TreeNode) :
    List (List GoStr) → Parser → Except (List Nat) TreeNode × Parser
  | [], p =>
    (.error (strBytes "no matching production for " ++ strGoBytes symbol ++
      strBytes " at position " ++ decBytes p.pos ++ strBytes " (found '" ++
      p.current.Value ++ strBytes "')"), p)
  | alt :: rest, p =>
    match parseAlternativeAux recNT alt node.ID p with
    | (.ok children, p1) => (.ok (node.setChildren children), p1)
    | (.error _, p1) =>
      tryAlternativesAux recNT symbol node rest
        { p1 with pos := p.pos, steps := p1.steps.take p.steps.length }

/-- parseNonTerminal of parser.go: look the symbol up (a missing
production is a hard failure), create the node for the non-terminal
before any alternative is tried, then run the alternative loop.  Fuel
models the recursion depth Go's call stack supplies; the fuel-out branch
replaces Go's divergence on left-recursive grammars and is a failure no
claim identifies with a Go outcome. -/
def parseNonTerminal : Nat → GoStr → Int → Parser → Except (List Nat) TreeNode × Parser
  | 0, _, _, p => (.error (strBytes "[recursion budget exhausted]"), p)
  | fuel + 1, symbol, parentID, p =>
    match lookupProd p.grammar.Productions symbol with
    | none => (.error (strBytes "undefined non-terminal: " ++ strGoBytes symbol), p)
    | some prod =>
      tryAlternativesAux (parseNonTerminal fuel) symbol
        (p.createNode (strGoBytes symbol) false parentID).1 prod.Body
        (p.createNode (strGoBytes symbol) false parentID).2

/-- parseAlternative of parser.go at a given recursion budget. -/
def parseAlternative (fuel : Nat) : List GoStr → Int → Parser → Except (List Nat) TreeList × Parser :=
  parseAlternativeAux (parseNonTerminal fuel)

/-- Parser.Parse of parser.go: tokenize, reset the per-invocation state,
fail when the grammar has no start symbol, expand the start symbol, and
require the cursor to sit on the EOF token before declaring success.
Returns the result together with the parser state after the call (the Go
method mutates its receiver). -/
def Parser.Parse (p : Parser) (input : List Nat) (recordSteps : Bool) (fuel : Nat) :
    ParseResult × Parser :=
  let tokens := Tokenize input
  let p0 : Parser := ⟨p.grammar, tokens, 0, 0, [], recordSteps⟩
  if p.grammar.StartSymbol = [] then
    (⟨false, none, [], strBytes "Grammar has no start symbol", tokens⟩, p0)
  else
    match parseNonTerminal fuel p.grammar.StartSymbol (-1) p0 with
    | (.error e, p1) => (⟨false, none, [], e, tokens⟩, p1)
    | (.ok tree, p1) =>
      if p1.current.typ == .EOF then (⟨true, some tree, p1.steps, [], tokens⟩, p1)
      else
        (⟨false, none, [], strBytes "Unexpected token '" ++ p1.current.Value ++
          strBytes "' at position " ++ decBytes p1.current.Position, tokens⟩, p1)

/-- ParseWithDefaultGrammar of parser.go (ParseGrammar never returns an
error, so its error branch is dead). -/
def ParseWithDefaultGrammar (input : List Nat) (recordSteps : Bool) (fuel : Nat) :
    ParseResult × Parser :=
  (NewParser (ParseGrammar GetDefaultArithmeticGrammar)).Parse input recordSteps fuel

/-- strings.Contains: whether `pat` occurs as a contiguous substring. -/
def containsSub (pat : GoStr) : GoStr → Bool
  | [] => pat.isEmpty
  | c :: rest => pat.isPrefixOf (c :: rest) || containsSub pat rest

/-! ## Step replay (the renderer contract of the spec)

The replay creates one node per step (id = step.nodeId, label and
terminal flag decoded from the description text) and attaches it as the
last child of the node whose id equals step.parentId, or makes it the
root when parentId is the sentinel -1. -/

mutual
/-- The steps the engine records for a finished subtree, in order: the
node's own "add" step (parented at `pid`), then its children's steps
left to right, parented at the node's id. -/
def stepsOf (pid : Int) : TreeNode → List Step
  | .mk i l cs b => ⟨strBytes "add", buildStepDescription l b, i, pid⟩ :: stepsOfL i cs
/-- Steps of a child list, all parented at `pid`, concatenated in
order. -/
def stepsOfL (pid : Int) : TreeList → List Step
  | .nil => []
  | .cons t ts => stepsOf pid t ++ stepsOfL pid ts
end

mutual
/-- Preorder id check: `chkT lo t = some m` iff the ids of `t` in
preorder are strictly increasing, all above `lo`, with `m` the last
(largest); mirrors how the engine's pre-increment counter hands out
ids. -/
def chkT (lo : Int) : TreeNode → Option Int
  | .mk i _ cs _ => if lo < i then chkL i cs else none
/-- Preorder id check over a child list, continuing from `lo`. -/
def chkL (lo : Int) : TreeList → Option Int
  | .nil => some lo
  | .cons t ts =>
    match chkT lo t with
    | some m => chkL m ts
    | none => none
end

mutual
/-- All node ids of a tree, preorder. -/
def idsT : TreeNode → List Int
  | .mk i _ cs _ => i :: idsL cs
/-- All node ids of a child list. -/
def idsL : TreeList → List Int
  | .nil => []
  | .cons t ts => idsT t ++ idsL ts
end

/-- Append one node at the end of a child list. -/
def snocTL (xs : TreeList) (c : TreeNode) : TreeList := appendTL xs (.cons c .nil)

mutual
/-- Attach `c` as the last child of the first node (in preorder) whose id
is `pid`; none when no such node exists. -/
def attachT (pid : Int) (c : TreeNode) : TreeNode → Option TreeNode
  | .mk i l cs b =>
    if i = pid then some (.mk i l (snocTL cs c) b)
    else
      match attachL pid c cs with
      | some cs2 => some (.mk i l cs2 b)
      | none => none
/-- Attach into the first child subtree that contains `pid`. -/
def attachL (pid : Int) (c : TreeNode) : TreeList → Option TreeList
  | .nil => none
  | .cons t ts =>
    match attachT pid c t with
    | some t2 => some (.cons t2 ts)
    | none =>
      match attachL pid c ts with
      | some ts2 => some (.cons t ts2)
      | none => none
end

/-- Label and terminal flag of a step, decoded from its description text
exactly as the spec's renderer contract describes: the fixed epsilon
description denotes an ε terminal, a "Match terminal '…'" description a
terminal labelled with the quoted text, anything else an
"Expand non-terminal <…>" description. -/
def decodeStep (st : Step) : List Nat × Bool :=
  if st.Description = strBytes "Match epsilon (empty string)" then (strBytes "ε", true)
  else if (strBytes "Match terminal '").isPrefixOf st.Description then
    ((st.Description.drop (strBytes "Match terminal '").length).dropLast, true)
  else ((st.Description.drop (strBytes "Expand non-terminal <").length).dropLast, false)

/-- Replay one step onto the partial tree: a sentinel parent makes the
node the root (failing when a root already exists), otherwise the node is
attached under the node carrying parentId. -/
def replayStep (acc : Option TreeNode) (st : Step) : Option TreeNode :=
  if st.ParentID = -1 then
    match acc with
    | none => some (TreeNode.mk st.NodeID (decodeStep st).1 .nil (decodeStep st).2)
    | some _ => none
  else
    match acc with
    | none => none
    | some t => attachT st.ParentID (TreeNode.mk st.NodeID (decodeStep st).1 .nil (decodeStep st).2) t

/-- Replay a full step log from the empty state. -/
def replaySteps (steps : List Step) : Option TreeNode := steps.foldl replayStep none

/-- Sequentially attach whole subtrees under the node `i`. -/
def attachFold (i : Int) : TreeList → Option TreeNode → Option TreeNode
  | .nil, acc => acc
  | .cons c cs, acc => attachFold i cs (acc.bind (attachT i c))

/-- The byte classes the Tokenize loop recognises besides the emergency
default: whitespace, digit-initial runs, letter-initial runs, and the six
single-character operator/paren bytes. -/
def recognizedByte (b : Nat) : Bool :=
  isSpaceByte b || isDigitByte b || isLetterByte b ||
  b == 43 || b == 45 || b == 42 || b == 47 || b == 40 || b == 41

/-- State-evolution invariant: the grammar, token slice and recording
flag are never written by the engine; the node-id counter never
decreases; and the step log changes only by appending or by truncation
back to an earlier length, so the log at any call entry is a prefix of
the log at the corresponding exit. -/
structure StPres (p q : Parser) : Prop where
  grammar_eq : q.grammar = p.grammar
  tokens_eq : q.tokens = p.tokens
  record_eq : q.recordSteps = p.recordSteps
  nodeID_le : p.nodeID ≤ q.nodeID
  steps_prefix : p.steps <+: q.steps

/-- All symbols of all alternatives are non-empty. -/
def BodyWF (B : List (List GoStr)) : Prop := ∀ alt ∈ B, ∀ sym ∈ alt, sym ≠ []

/-- All production bodies of the grammar consist of non-empty symbols. -/
def wfSyms (g : Grammar) : Prop := ∀ kp ∈ g.Productions, BodyWF kp.2.Body

/-- The token stream shape Tokenize guarantees: some EOF-free front, then
a single EOF token with empty text. -/
def okTokens (ts : List Token) : Prop :=
  ∃ front eofPos, ts = front ++ [⟨.EOF, [], eofPos⟩] ∧ ∀ t ∈ front, t.typ ≠ .EOF

/-- The ok-case contract of a non-terminal expander: on success with
recording on, the new steps are exactly the subtree's preorder listing,
and the subtree's ids are preorder-increasing starting above the entry
counter and bounded by the exit counter. -/
def NTStepsOK (F : GoStr → Int → Parser → Except (List Nat) TreeNode × Parser) : Prop :=
  ∀ (sym : GoStr) (pid : Int) (s : Parser) (nd : TreeNode) (s2 : Parser),
    F sym pid s = (.ok nd, s2) → s.recordSteps = true →
    s2.steps = s.steps ++ stepsOf pid nd ∧
    ∃ m, chkT s.nodeID nd = some m ∧ m ≤ s2.nodeID

/-! ## Theorems -/

theorem numTail_length_le (hasDec : Bool) (l : List Nat) : (numTail hasDec l).length ≤ l.length := by
  induction l generalizing hasDec with
  | nil => simp [numTail]
  | cons b rest ih =>
    by_cases h1 : isDigitByte b
    · simpa [numTail, h1] using ih hasDec
    · by_cases h2 : (b == 46 && !hasDec) = true
      · simpa [numTail, h1, h2] using ih true
      · simp [numTail, h1, h2]

theorem singleTok_typ_ne_eof (b pos : Nat) : (singleTok b pos).typ ≠ .EOF := by
  unfold singleTok
  repeat' split
  all_goals simp

/-- If the switch falls through to its default, the token is UNKNOWN
carrying string(ch) of the offending byte; and conversely an UNKNOWN
result only arises that way. -/
theorem singleTok_unknown (b pos : Nat) (h : (singleTok b pos).typ = .UNKNOWN) :
    singleTok b pos = ⟨.UNKNOWN, byteStr b, pos⟩ ∧
      (b == 43) = false ∧ (b == 45) = false ∧ (b == 42) = false ∧
      (b == 47) = false ∧ (b == 40) = false ∧ (b == 41) = false := by
  unfold singleTok at h ⊢
  repeat' split at h
  all_goals simp_all

/-- The token stream of `tokenizeAux` with enough fuel: the loop tokens,
none of kind EOF, then the single EOF token at the end-of-input offset. -/
theorem tokenizeAux_ends_eof (fuel : Nat) :
    ∀ rest pos, rest.length < fuel →
      ∃ ts, tokenizeAux fuel rest pos = ts ++ [⟨.EOF, [], pos + rest.length⟩] ∧
        ∀ t ∈ ts, t.typ ≠ .EOF := by
  induction fuel with
  | zero => intro rest pos h; omega
  | succ fuel ih =>
    intro rest pos h
    match rest with
    | [] => exact ⟨[], rfl, by simp⟩
    | b :: rest =>
      simp only [List.length_cons] at h
      by_cases hs : isSpaceByte b
      · obtain ⟨ts, hts, hne⟩ := ih rest (pos + 1) (by omega)
        refine ⟨ts, ?_, hne⟩
        rw [show pos + (b :: rest).length = pos + 1 + rest.length by simp; omega]
        simpa [tokenizeAux, hs] using hts
      · by_cases hd : isDigitByte b
        · set v := numTail false (b :: rest) with hvdef
          have hv1 : 1 ≤ v.length := by rw [hvdef]; simp [numTail, hd]
          have hvle : v.length ≤ (b :: rest).length := numTail_length_le false (b :: rest)
          simp only [List.length_cons] at hvle
          obtain ⟨ts, hts, hne⟩ := ih (List.drop v.length (b :: rest)) (pos + v.length)
            (by simp only [List.length_drop, List.length_cons]; omega)
          refine ⟨⟨.NUMBER, v, pos⟩ :: ts, ?_, ?_⟩
          · rw [show pos + (b :: rest).length =
              pos + v.length + (List.drop v.length (b :: rest)).length by
                simp only [List.length_drop, List.length_cons]; omega]
            simpa [tokenizeAux, hs, hd, ← hvdef] using hts
          · intro t ht
            rw [List.mem_cons] at ht
            rcases ht with rfl | ht
            · simp
            · exact hne _ ht
        · by_cases hl : isLetterByte b
          · set v := List.takeWhile identByte (b :: rest) with hvdef
            have hv1 : 1 ≤ v.length := by
              have hb : identByte b = true := by simp [identByte, hl]
              rw [hvdef]
              simp [List.takeWhile_cons, hb]
            have hvle : v.length ≤ (b :: rest).length := (List.takeWhile_sublist _).length_le
            simp only [List.length_cons] at hvle
            obtain ⟨ts, hts, hne⟩ := ih (List.drop v.length (b :: rest)) (pos + v.length)
              (by simp only [List.length_drop, List.length_cons]; omega)
            refine ⟨⟨if asciiLower v == strBytes "number" then TokenType.NUMBER else .IDENT,
              v, pos⟩ :: ts, ?_, ?_⟩
            · rw [show pos + (b :: rest).length =
                pos + v.length + (List.drop v.length (b :: rest)).length by
                  simp only [List.length_drop, List.length_cons]; omega]
              simpa [tokenizeAux, hs, hd, hl, ← hvdef] using hts
            · intro t ht
              rw [List.mem_cons] at ht
              rcases ht with rfl | ht
              · split <;> simp
              · exact hne _ ht
          · obtain ⟨ts, hts, hne⟩ := ih rest (pos + 1) (by omega)
            refine ⟨singleTok b pos :: ts, ?_, ?_⟩
            · rw [show pos + (b :: rest).length = pos + 1 + rest.length by simp; omega]
              simpa [tokenizeAux, hs, hd, hl] using hts
            · intro t ht
              rw [List.mem_cons] at ht
              rcases ht with rfl | ht
              · exact singleTok_typ_ne_eof b pos
              · exact hne _ ht

/-- Every UNKNOWN token of the loop carries string(ch) of exactly the
single offending byte found at its position of the original input. -/
theorem tokenizeAux_unknown (fuel : Nat) :
    ∀ rest pos (input : List Nat), input.drop pos = rest →
      ∀ t ∈ tokenizeAux fuel rest pos, t.typ = .UNKNOWN →
        ∃ c, t.Value = byteStr c ∧ input[t.Position]? = some c ∧ recognizedByte c = false := by
  induction fuel with
  | zero =>
    intro rest pos input _ t ht htyp
    simp only [tokenizeAux, List.mem_singleton] at ht
    subst ht
    simp at htyp
  | succ fuel ih =>
    intro rest pos input hdrop t ht htyp
    match rest with
    | [] =>
      simp only [tokenizeAux, List.mem_singleton] at ht
      subst ht
      simp at htyp
    | b :: rest =>
      have hnext : ∀ k, input.drop (pos + k) = List.drop k (b :: rest) := by
        intro k
        rw [← List.drop_drop, hdrop]
      by_cases hs : isSpaceByte b
      · rw [show tokenizeAux (fuel + 1) (b :: rest) pos = tokenizeAux fuel rest (pos + 1) by
          simp [tokenizeAux, hs]] at ht
        exact ih rest (pos + 1) input (by simpa using hnext 1) t ht htyp
      · by_cases hd : isDigitByte b
        · rw [show tokenizeAux (fuel + 1) (b :: rest) pos =
            ⟨.NUMBER, numTail false (b :: rest), pos⟩ ::
              tokenizeAux fuel (List.drop (numTail false (b :: rest)).length (b :: rest))
                (pos + (numTail false (b :: rest)).length) by
            simp [tokenizeAux, hs, hd]] at ht
          rw [List.mem_cons] at ht
          rcases ht with rfl | ht
          · simp at htyp
          · exact ih _ _ input (hnext _) t ht htyp
        · by_cases hl : isLetterByte b
          · rw [show tokenizeAux (fuel + 1) (b :: rest) pos =
              ⟨if asciiLower (List.takeWhile identByte (b :: rest)) == strBytes "number"
                  then TokenType.NUMBER else .IDENT,
                List.takeWhile identByte (b :: rest), pos⟩ ::
                tokenizeAux fuel
                  (List.drop (List.takeWhile identByte (b :: rest)).length (b :: rest))
                  (pos + (List.takeWhile identByte (b :: rest)).length) by
              simp [tokenizeAux, hs, hd, hl]] at ht
            rw [List.mem_cons] at ht
            rcases ht with rfl | ht
            · revert htyp; split <;> simp
            · exact ih _ _ input (hnext _) t ht htyp
          · rw [show tokenizeAux (fuel + 1) (b :: rest) pos =
              singleTok b pos :: tokenizeAux fuel rest (pos + 1) by
                simp [tokenizeAux, hs, hd, hl]] at ht
            rw [List.mem_cons] at ht
            rcases ht with rfl | ht
            · obtain ⟨heq, h43, h45, h42, h47, h40, h41⟩ := singleTok_unknown b pos htyp
              refine ⟨b, by rw [heq], ?_, ?_⟩
              · have h0 := hnext 0
                simp only [Nat.add_zero, List.drop_zero] at h0
                have : input[pos]? = some b := by
                  have h2 := List.getElem?_drop input pos 0
                  rw [h0] at h2
                  simpa using h2.symm
                rw [heq]
                simpa using this
              · simp [recognizedByte, hs, hd, hl, h43, h45, h42, h47, h40, h41]
            · exact ih rest (pos + 1) input (by simpa using hnext 1) t ht htyp

/-- C7: Tokenize never fails (it is a total function of the input bytes);
its output always ends with the EOF token, whose text is empty and whose
position is the input length, with no EOF token before it; every UNKNOWN
token carries exactly the single offending byte standing at its position
in the input, as the string Go's string(ch) conversion makes of it; and
at any scan position whose byte none of the lexer's classes recognise,
the loop emits that UNKNOWN token and resumes directly after the byte. -/
theorem claim7_tokenize (input : List Nat) :
    (∃ ts, Tokenize input = ts ++ [⟨.EOF, [], input.length⟩] ∧ ∀ t ∈ ts, t.typ ≠ .EOF) ∧
    (∀ t ∈ Tokenize input, t.typ = .UNKNOWN →
      ∃ c, t.Value = byteStr c ∧ input[t.Position]? = some c ∧ recognizedByte c = false) ∧
    (∀ fuel pos c rest, recognizedByte c = false →
      tokenizeAux (fuel + 1) (c :: rest) pos =
        ⟨.UNKNOWN, byteStr c, pos⟩ :: tokenizeAux fuel rest (pos + 1)) := by
  refine ⟨?_, ?_, ?_⟩
  · simpa [Tokenize] using
      tokenizeAux_ends_eof (input.length + 1) input 0 (by omega)
  · exact tokenizeAux_unknown (input.length + 1) input 0 input (by simp)
  · intro fuel pos c rest hc
    simp only [recognizedByte, Bool.or_eq_false_iff, beq_eq_false_iff_ne] at hc
    obtain ⟨⟨⟨⟨⟨⟨⟨⟨hs, hd⟩, hl⟩, h43⟩, h45⟩, h42⟩, h47⟩, h40⟩, h41⟩ := hc
    simp [tokenizeAux, singleTok, hs, hd, hl, h43, h45, h42, h47, h40, h41]

/-- Witness for C7: on the one-byte input consisting of the unrecognized
high byte 0xA1 the theorem's UNKNOWN and scan-step conjuncts apply
concretely: the UNKNOWN token carries string(ch) of the offending byte —
the two bytes 0xC2 0xA1, as Go's byte-to-string conversion UTF-8-encodes
code points at or above 0x80 — and the step equation holds. -/
theorem claim7_witness :
    (∃ c, (⟨.UNKNOWN, [194, 161], 0⟩ : Token).Value = byteStr c ∧
      ([161] : List Nat)[(0 : Nat)]? = some c ∧ recognizedByte c = false) ∧
    tokenizeAux 2 [161] 0 = ⟨.UNKNOWN, byteStr 161, 0⟩ :: tokenizeAux 1 [] 1 := by
  constructor
  · exact (claim7_tokenize [161]).2.1 ⟨.UNKNOWN, [194, 161], 0⟩ (by decide) rfl
  · exact (claim7_tokenize []).2.2 1 0 161 [] (by decide)

/-! ### Engine state evolution

Facts every engine operation preserves: the grammar, token slice and
recording flag are never written; the node-id counter never decreases;
and the step log changes only by appending or by truncation back to an
earlier length, so the log at any call entry is a prefix of the log at
the corresponding exit. -/

theorem StPres.refl (p : Parser) : StPres p p :=
  ⟨rfl, rfl, rfl, le_refl _, List.prefix_refl _⟩

theorem StPres.trans {p q r : Parser} (h1 : StPres p q) (h2 : StPres q r) : StPres p r :=
  ⟨h2.grammar_eq.trans h1.grammar_eq, h2.tokens_eq.trans h1.tokens_eq,
   h2.record_eq.trans h1.record_eq, h1.nodeID_le.trans h2.nodeID_le,
   h1.steps_prefix.trans h2.steps_prefix⟩

theorem prefix_take_eq {α : Type} {a b : List α} (h : a <+: b) : b.take a.length = a := by
  obtain ⟨t, rfl⟩ := h
  exact List.take_left a t

theorem createNode_snd_eq (p : Parser) (l : List Nat) (b : Bool) (pid : Int) :
    (p.createNode l b pid).2 = { p with
      nodeID := p.nodeID + 1
      steps := p.steps ++ (if p.recordSteps then
        [⟨strBytes "add", buildStepDescription l b, p.nodeID + 1, pid⟩] else []) } := by
  unfold Parser.createNode
  by_cases h : p.recordSteps <;> simp [h]

theorem createNode_stPres (p : Parser) (l : List Nat) (b : Bool) (pid : Int) :
    StPres p (p.createNode l b pid).2 := by
  rw [createNode_snd_eq]
  exact ⟨rfl, rfl, rfl, by dsimp only; omega, by dsimp only; exact List.prefix_append _ _⟩

theorem createNode_pos (p : Parser) (l : List Nat) (b : Bool) (pid : Int) :
    (p.createNode l b pid).2.pos = p.pos := by
  rw [createNode_snd_eq]

theorem advance_stPres (p : Parser) : StPres p p.advance := by
  unfold Parser.advance
  split
  · exact ⟨rfl, rfl, rfl, le_refl _, List.prefix_refl _⟩
  · exact StPres.refl p

theorem matchTerminal_stPres (p : Parser) (sym : GoStr) (pid : Int) :
    StPres p (p.matchTerminal sym pid).2 := by
  unfold Parser.matchTerminal
  split
  · exact (createNode_stPres p _ true pid).trans (advance_stPres _)
  · exact StPres.refl p

theorem parseAlternativeAux_stPres
    (recNT : GoStr → Int → Parser → Except (List Nat) TreeNode × Parser)
    (hrec : ∀ sym pid s, StPres s (recNT sym pid s).2) :
    ∀ (syms : List GoStr) (pid : Int) (p : Parser),
      StPres p (parseAlternativeAux recNT syms pid p).2 := by
  intro syms
  induction syms with
  | nil => intro pid p; exact StPres.refl p
  | cons sym rest ih =>
    intro pid p
    rw [parseAlternativeAux]
    split
    · have h1 := createNode_stPres p (strBytes "ε") true pid
      have h2 := ih pid (p.createNode (strBytes "ε") true pid).2
      split
      next children p2 heq => rw [heq] at h2; exact h1.trans h2
      next e p2 heq => rw [heq] at h2; exact h1.trans h2
    · split
      · have h1 := matchTerminal_stPres p sym pid
        split
        next node p1 heq1 =>
          rw [heq1] at h1
          have h2 := ih pid p1
          split
          next children p2 heq2 => rw [heq2] at h2; exact h1.trans h2
          next e p2 heq2 => rw [heq2] at h2; exact h1.trans h2
        next e p1 heq1 => rw [heq1] at h1; exact h1
      · have h1 := hrec sym pid p
        split
        next node p1 heq1 =>
          rw [heq1] at h1
          have h2 := ih pid p1
          split
          next children p2 heq2 => rw [heq2] at h2; exact h1.trans h2
          next e p2 heq2 => rw [heq2] at h2; exact h1.trans h2
        next e p1 heq1 => rw [heq1] at h1; exact h1

theorem tryAlternativesAux_stPres
    (recNT : GoStr → Int → Parser → Except (List Nat) TreeNode × Parser)
    (hrec : ∀ sym pid s, StPres s (recNT sym pid s).2)
    (symbol : GoStr) (node : TreeNode) :
    ∀ (alts : List (List GoStr)) (p : Parser),
      StPres p (tryAlternativesAux recNT symbol node alts p).2 := by
  intro alts
  induction alts with
  | nil => intro p; exact StPres.refl p
  | cons alt rest ih =>
    intro p
    rw [tryAlternativesAux]
    have h1 := parseAlternativeAux_stPres recNT hrec alt node.ID p
    split
    next children p1 heq => rw [heq] at h1; exact h1
    next e p1 heq =>
      rw [heq] at h1
      refine StPres.trans ?_ (ih { p1 with pos := p.pos, steps := p1.steps.take p.steps.length })
      refine ⟨h1.grammar_eq, h1.tokens_eq, h1.record_eq, h1.nodeID_le, ?_⟩
      dsimp only
      rw [prefix_take_eq h1.steps_prefix]

theorem parseNonTerminal_stPres (fuel : Nat) :
    ∀ (sym : GoStr) (pid : Int) (p : Parser), StPres p (parseNonTerminal fuel sym pid p).2 := by
  induction fuel with
  | zero => intro sym pid p; exact StPres.refl p
  | succ fuel ih =>
    intro sym pid p
    rw [parseNonTerminal]
    split
    · exact StPres.refl p
    next prod heq =>
      exact (createNode_stPres p _ false pid).trans
        (tryAlternativesAux_stPres (parseNonTerminal fuel) ih sym _ prod.Body _)

/-! ### Grammar and token-stream well-formedness

`parseSymbols` filters empty symbols out, so every symbol of every
production body a grammar built by ParseGrammar carries is a non-empty
string; and Tokenize emits exactly one EOF token, last.  These two facts
make the EOF token unmatchable and keep the cursor inside the token
slice. -/

theorem okTokens_tokenize (input : List Nat) : okTokens (Tokenize input) := by
  obtain ⟨ts, hts, hne⟩ := tokenizeAux_ends_eof (input.length + 1) input 0 (by omega)
  exact ⟨ts, input.length, by simpa [Tokenize] using hts, hne⟩

theorem parseSymbols_ne_nil {body : GoStr} : ∀ sym ∈ parseSymbols body, sym ≠ [] := by
  intro sym h
  have h2 : sym ∈ List.filter (fun x => decide (x ≠ []))
      ((goFields (replaceAll (replaceAll body "ε".data " ε ".data)
        "epsilon".data " ε ".data)).map goTrim) := h
  simpa using List.of_mem_filter h2

theorem insertProd_wf : ∀ (ps : List (GoStr × Production)) (head : GoStr)
    (bodies : List (List GoStr)),
    (∀ kp ∈ ps, BodyWF kp.2.Body) → BodyWF bodies →
    ∀ kp ∈ insertProd ps head bodies, BodyWF kp.2.Body := by
  intro ps
  induction ps with
  | nil =>
    intro head bodies _ hb kp hkp
    simp only [insertProd, List.mem_singleton] at hkp
    subst hkp
    exact hb
  | cons hd tl ih =>
    intro head bodies hps hb kp hkp
    rw [insertProd] at hkp
    split at hkp
    · rw [List.mem_cons] at hkp
      rcases hkp with rfl | hkp
      · intro alt halt
        rw [List.mem_append] at halt
        rcases halt with halt | halt
        · exact hps hd (List.mem_cons_self hd tl) alt halt
        · exact hb alt halt
      · exact hps kp (List.mem_cons_of_mem hd hkp)
    · rw [List.mem_cons] at hkp
      rcases hkp with rfl | hkp
      · exact hps _ (List.mem_cons_self _ _)
      · exact ih head bodies (fun q hq => hps q (List.mem_cons_of_mem hd hq)) hb kp hkp

theorem lineBodies_wf (after : GoStr) : BodyWF (lineBodies after) := by
  intro alt halt
  simp only [lineBodies, List.mem_filterMap] at halt
  obtain ⟨a, -, hif⟩ := halt
  split at hif
  · exact absurd hif (by simp)
  · split at hif
    · rw [Option.some.injEq] at hif
      subst hif
      exact parseSymbols_ne_nil
    · exact absurd hif (by simp)

theorem processLine_wf (acc : Grammar × Bool) (line : GoStr)
    (h : ∀ kp ∈ acc.1.Productions, BodyWF kp.2.Body) :
    ∀ kp ∈ (processLine acc line).1.Productions, BodyWF kp.2.Body := by
  rw [processLine]
  split
  · exact h
  · split
    · exact h
    · split
      · exact h
      · exact insertProd_wf _ _ _ h (lineBodies_wf _)

theorem wfSyms_parseGrammar (text : String) : wfSyms (ParseGrammar text) := by
  have main : ∀ (lines : List GoStr) (acc : Grammar × Bool),
      (∀ kp ∈ acc.1.Productions, BodyWF kp.2.Body) →
      ∀ kp ∈ (lines.foldl processLine acc).1.Productions, BodyWF kp.2.Body := by
    intro lines
    induction lines with
    | nil => intro acc hacc; exact hacc
    | cons l rest ih =>
      intro acc hacc
      exact ih (processLine acc l) (processLine_wf acc l hacc)
  intro kp hkp
  exact main (splitOnChar '\n' text.data) (⟨[], [], [], []⟩, true) (by simp) kp hkp

theorem lookupProd_mem : ∀ {ps : List (GoStr × Production)} {k : GoStr} {prod : Production},
    lookupProd ps k = some prod → (k, prod) ∈ ps := by
  intro ps
  induction ps with
  | nil => intro k prod h; simp [lookupProd] at h
  | cons hd tl ih =>
    intro k prod h
    rw [lookupProd] at h
    split at h
    next heq =>
      rw [Option.some.injEq] at h
      subst heq h
      exact List.mem_cons_self _ _
    · exact List.mem_cons_of_mem hd (ih h)

/-! ### The EOF token is unmatchable and the cursor stays in bounds -/

theorem utf8Char_ne_nil (c : Char) : utf8Char c ≠ [] := by
  unfold utf8Char
  by_cases h1 : c.toNat < 128
  · simp [h1]
  · by_cases h2 : c.toNat < 2048
    · simp [h1, h2]
    · by_cases h3 : c.toNat < 65536
      · simp [h1, h2, h3]
      · simp [h1, h2, h3]

theorem strGoBytes_ne_nil {sym : GoStr} (h : sym ≠ []) : strGoBytes sym ≠ [] := by
  match sym with
  | [] => exact absurd rfl h
  | c :: rest =>
    unfold strGoBytes
    rw [List.flatMap_cons]
    intro hc
    exact utf8Char_ne_nil c (List.append_eq_nil.mp hc).1

/-- The matchTerminal switch rejects the EOF token whatever non-empty
symbol it is given: the kind cases require non-EOF kinds, and the default
text comparison cannot equate the empty EOF text with a non-empty
symbol's bytes. -/
theorem terminalMatched_eof {sym : GoStr} {t : Token} (hsym : sym ≠ [])
    (ht : t.typ = .EOF) (hv : t.Value = []) : terminalMatched sym t = false := by
  unfold terminalMatched
  rw [ht, hv]
  repeat' split
  all_goals first
    | decide
    | (simp only [beq_eq_false_iff_ne]
       exact fun h2 => strGoBytes_ne_nil hsym h2.symm)

theorem current_eq_getElem {p : Parser} (h : p.pos < p.tokens.length) :
    p.current = p.tokens[p.pos] := by
  unfold Parser.current
  rw [dif_pos h]

theorem advance_pos_lt {q : Parser} (h : q.pos < q.tokens.length) :
    q.advance.pos = q.pos + 1 := by
  unfold Parser.advance
  rw [if_pos h]

/-- The cursor after matchTerminal stays inside the token slice: a match
advances by one, and the EOF token sitting last can never match a
non-empty symbol, so the cursor cannot step past the slice's final
index. -/
theorem matchTerminal_pos {p : Parser} {sym : GoStr} (pid : Int) (hsym : sym ≠ [])
    (hok : okTokens p.tokens) (hpos : p.pos < p.tokens.length) :
    (p.matchTerminal sym pid).2.pos < (p.matchTerminal sym pid).2.tokens.length := by
  have htok : (p.matchTerminal sym pid).2.tokens = p.tokens :=
    (matchTerminal_stPres p sym pid).tokens_eq
  rw [htok]
  unfold Parser.matchTerminal
  split
  next hm =>
    obtain ⟨front, eofPos, hts, hfr⟩ := hok
    have hlen : p.tokens.length = front.length + 1 := by rw [hts]; simp
    have hne : p.pos ≠ front.length := by
      intro heq
      have hcur : p.tokens[p.pos]? = some (⟨.EOF, [], eofPos⟩ : Token) := by
        rw [hts, heq, List.getElem?_append_right (le_refl _)]
        simp
      have h3 := List.getElem?_eq_getElem hpos
      have h4 : p.current = ⟨.EOF, [], eofPos⟩ :=
        (current_eq_getElem hpos).trans (Option.some_injective _ (h3.symm.trans hcur))
      rw [terminalMatched_eof hsym (by rw [h4]) (by rw [h4])] at hm
      exact absurd hm (by simp)
    have hq : (p.createNode p.current.Value true pid).2.advance.pos = p.pos + 1 := by
      rw [advance_pos_lt, createNode_pos]
      rw [createNode_pos, (createNode_stPres p _ true pid).tokens_eq]
      exact hpos
    dsimp only
    rw [hq]
    omega
  · exact hpos

theorem parseAlternativeAux_pos
    (recNT : GoStr → Int → Parser → Except (List Nat) TreeNode × Parser)
    (hrecPres : ∀ sym pid s, StPres s (recNT sym pid s).2)
    (hrec : ∀ sym pid (s : Parser), wfSyms s.grammar → okTokens s.tokens →
      s.pos < s.tokens.length → (recNT sym pid s).2.pos < (recNT sym pid s).2.tokens.length) :
    ∀ (syms : List GoStr) (pid : Int) (p : Parser), (∀ sym ∈ syms, sym ≠ []) →
      wfSyms p.grammar → okTokens p.tokens → p.pos < p.tokens.length →
      (parseAlternativeAux recNT syms pid p).2.pos <
        (parseAlternativeAux recNT syms pid p).2.tokens.length := by
  intro syms
  induction syms with
  | nil => intro pid p _ _ _ hpos; exact hpos
  | cons sym rest ih =>
    intro pid p hsyms hg hok hpos
    rw [parseAlternativeAux]
    split
    · have hcn := createNode_stPres p (strBytes "ε") true pid
      have hpos1 : (p.createNode (strBytes "ε") true pid).2.pos <
          (p.createNode (strBytes "ε") true pid).2.tokens.length := by
        rw [createNode_pos, hcn.tokens_eq]
        exact hpos
      have h2 := ih pid (p.createNode (strBytes "ε") true pid).2
        (fun s hs => hsyms s (List.mem_cons_of_mem _ hs))
        (by rw [hcn.grammar_eq]; exact hg) (by rw [hcn.tokens_eq]; exact hok) hpos1
      split
      next children p2 heq => rw [heq] at h2; exact h2
      next e p2 heq => rw [heq] at h2; exact h2
    · split
      · have hsym : sym ≠ [] := hsyms sym (List.mem_cons_self _ _)
        have h1 := @matchTerminal_pos p sym pid hsym hok hpos
        have hmt := matchTerminal_stPres p sym pid
        split
        next node p1 heq1 =>
          rw [heq1] at h1 hmt
          have h2 := ih pid p1 (fun s hs => hsyms s (List.mem_cons_of_mem _ hs))
            (by rw [hmt.grammar_eq]; exact hg)
            (by rw [hmt.tokens_eq]; exact hok) h1
          split
          next children p2 heq2 => rw [heq2] at h2; exact h2
          next e p2 heq2 => rw [heq2] at h2; exact h2
        next e p1 heq1 => rw [heq1] at h1; exact h1
      · have h1 := hrec sym pid p hg hok hpos
        have hp := hrecPres sym pid p
        split
        next node p1 heq1 =>
          rw [heq1] at h1 hp
          have h2 := ih pid p1 (fun s hs => hsyms s (List.mem_cons_of_mem _ hs))
            (by rw [hp.grammar_eq]; exact hg)
            (by rw [hp.tokens_eq]; exact hok) h1
          split
          next children p2 heq2 => rw [heq2] at h2; exact h2
          next e p2 heq2 => rw [heq2] at h2; exact h2
        next e p1 heq1 => rw [heq1] at h1; exact h1

theorem tryAlternativesAux_pos
    (recNT : GoStr → Int → Parser → Except (List Nat) TreeNode × Parser)
    (hrecPres : ∀ sym pid s, StPres s (recNT sym pid s).2)
    (hrec : ∀ sym pid (s : Parser), wfSyms s.grammar → okTokens s.tokens →
      s.pos < s.tokens.length → (recNT sym pid s).2.pos < (recNT sym pid s).2.tokens.length)
    (symbol : GoStr) (node : TreeNode) :
    ∀ (alts : List (List GoStr)) (p : Parser), (∀ alt ∈ alts, ∀ sym ∈ alt, sym ≠ []) →
      wfSyms p.grammar → okTokens p.tokens → p.pos < p.tokens.length →
      (tryAlternativesAux recNT symbol node alts p).2.pos <
        (tryAlternativesAux recNT symbol node alts p).2.tokens.length := by
  intro alts
  induction alts with
  | nil => intro p _ _ _ hpos; exact hpos
  | cons alt rest ih =>
    intro p halts hg hok hpos
    rw [tryAlternativesAux]
    have h1 := parseAlternativeAux_pos recNT hrecPres hrec alt node.ID p
      (halts alt (List.mem_cons_self _ _)) hg hok hpos
    have hp := parseAlternativeAux_stPres recNT hrecPres alt node.ID p
    split
    next children p1 heq => rw [heq] at h1; exact h1
    next e p1 heq =>
      rw [heq] at h1 hp
      refine ih { p1 with pos := p.pos, steps := p1.steps.take p.steps.length }
        (fun a ha => halts a (List.mem_cons_of_mem _ ha)) ?_ ?_ ?_
      · show wfSyms p1.grammar
        rw [hp.grammar_eq]
        exact hg
      · show okTokens p1.tokens
        rw [hp.tokens_eq]
        exact hok
      · show p.pos < p1.tokens.length
        rw [hp.tokens_eq]
        exact hpos

theorem parseNonTerminal_pos (fuel : Nat) :
    ∀ (sym : GoStr) (pid : Int) (p : Parser), wfSyms p.grammar → okTokens p.tokens →
      p.pos < p.tokens.length →
      (parseNonTerminal fuel sym pid p).2.pos <
        (parseNonTerminal fuel sym pid p).2.tokens.length := by
  induction fuel with
  | zero => intro sym pid p _ _ hpos; exact hpos
  | succ fuel ih =>
    intro sym pid p hg hok hpos
    rw [parseNonTerminal]
    split
    · exact hpos
    next prod heq =>
      have hbody : BodyWF prod.Body := hg _ (lookupProd_mem heq)
      have hcn := createNode_stPres p (strGoBytes sym) false pid
      refine tryAlternativesAux_pos (parseNonTerminal fuel) (parseNonTerminal_stPres fuel) ih
        sym _ prod.Body _ hbody ?_ ?_ ?_
      · show wfSyms (p.createNode (strGoBytes sym) false pid).2.grammar
        rw [hcn.grammar_eq]
        exact hg
      · show okTokens (p.createNode (strGoBytes sym) false pid).2.tokens
        rw [hcn.tokens_eq]
        exact hok
      · rw [createNode_pos, hcn.tokens_eq]
        exact hpos

/-- C2: in parseNonTerminal, when the first alternative of a production
fails, the engine hands the remaining alternatives a state whose cursor
is restored to its pre-attempt value (p.pos — createNode does not move
the cursor) and whose step log is truncated back to exactly the
pre-attempt log (here the log right after the non-terminal's own node
step): every token consumption and every step of the failed attempt is
discarded, while only the node-id counter keeps the failed attempt's
advance.  In particular, for alternatives `A | B`, B is tried from the
same cursor at which A started, so tokens a partway-failing A consumed
are available to B again.  (Stated for the head alternative; the loop
re-snapshots before every later alternative, so each failure reduces to
this form.) -/
theorem claim2_backtracking (fuel : Nat) (symbol : GoStr) (parentID : Int) (p : Parser)
    (prod : Production) (A : List GoStr) (rest : List (List GoStr)) (e : List Nat) (pF : Parser)
    (hprod : lookupProd p.grammar.Productions symbol = some prod)
    (hbody : prod.Body = A :: rest)
    (hfail : parseAlternative fuel A
        (p.createNode (strGoBytes symbol) false parentID).1.ID
        (p.createNode (strGoBytes symbol) false parentID).2 = (.error e, pF)) :
    parseNonTerminal (fuel + 1) symbol parentID p =
      tryAlternativesAux (parseNonTerminal fuel) symbol
        (p.createNode (strGoBytes symbol) false parentID).1 rest
        { pF with pos := p.pos
                  steps := (p.createNode (strGoBytes symbol) false parentID).2.steps } := by
  have hpres : StPres (p.createNode (strGoBytes symbol) false parentID).2 pF := by
    have h := parseAlternativeAux_stPres (parseNonTerminal fuel) (parseNonTerminal_stPres fuel)
      A (p.createNode (strGoBytes symbol) false parentID).1.ID
      (p.createNode (strGoBytes symbol) false parentID).2
    rwa [show parseAlternativeAux (parseNonTerminal fuel) A
        (p.createNode (strGoBytes symbol) false parentID).1.ID
        (p.createNode (strGoBytes symbol) false parentID).2 = (.error e, pF) from hfail] at h
  rw [parseNonTerminal, hprod]
  simp only [hbody]
  rw [tryAlternativesAux]
  rw [show parseAlternativeAux (parseNonTerminal fuel) A
      (p.createNode (strGoBytes symbol) false parentID).1.ID
      (p.createNode (strGoBytes symbol) false parentID).2 = (.error e, pF) from hfail]
  dsimp only
  rw [createNode_pos p _ false parentID, prefix_take_eq hpres.steps_prefix]

/-- Witness for C2: grammar `S -> a b | a c` on input "a c".  The first
alternative consumes the token a and fails on b; the theorem applies and
hands `a c` the restored cursor 0 and the one-step log, after which the
parse in fact succeeds — the a consumed by the failed alternative was
re-available. -/
theorem claim2_witness :
    ∃ (e : List Nat) (pF : Parser),
      parseAlternative 5 ["a".data, "b".data]
        (Parser.createNode ⟨ParseGrammar "S -> a b | a c", Tokenize (strBytes "a c"),
            0, 0, [], true⟩ (strGoBytes "S".data) false (-1)).1.ID
        (Parser.createNode ⟨ParseGrammar "S -> a b | a c", Tokenize (strBytes "a c"),
            0, 0, [], true⟩ (strGoBytes "S".data) false (-1)).2 = (.error e, pF) ∧
      parseNonTerminal 6 "S".data (-1)
          ⟨ParseGrammar "S -> a b | a c", Tokenize (strBytes "a c"), 0, 0, [], true⟩ =
        tryAlternativesAux (parseNonTerminal 5) "S".data
          (Parser.createNode ⟨ParseGrammar "S -> a b | a c", Tokenize (strBytes "a c"),
              0, 0, [], true⟩ (strGoBytes "S".data) false (-1)).1
          [["a".data, "c".data]]
          { pF with
            pos := (⟨ParseGrammar "S -> a b | a c", Tokenize (strBytes "a c"),
              0, 0, [], true⟩ : Parser).pos
            steps := (Parser.createNode ⟨ParseGrammar "S -> a b | a c", Tokenize (strBytes "a c"),
              0, 0, [], true⟩ (strGoBytes "S".data) false (-1)).2.steps } ∧
      ((⟨ParseGrammar "S -> a b | a c", Tokenize (strBytes "a c"), 0, 0, [], true⟩ : Parser).Parse
        (strBytes "a c") true 10).1.Success = true := by
  refine ⟨_, _, rfl, ?_, rfl⟩
  exact claim2_backtracking 5 "S".data (-1) _ ⟨"S".data, [["a".data, "b".data], ["a".data, "c".data]]⟩
    ["a".data, "b".data] [["a".data, "c".data]] _ _ rfl rfl rfl

theorem getElem?_append_length {α : Type} (front : List α) (e : α) :
    (front ++ [e])[front.length]? = some e := by
  rw [List.getElem?_append_right (le_refl _)]
  simp

theorem eof_only_last {front : List Token} {e : Token} {i : Nat} {t : Token}
    (hfr : ∀ t ∈ front, t.typ ≠ .EOF)
    (hget : (front ++ [e])[i]? = some t) (htyp : t.typ = .EOF) : i = front.length := by
  by_cases h : i < front.length
  · exfalso
    rw [List.getElem?_append, if_pos h] at hget
    exact hfr t (List.getElem?_mem hget) htyp
  · have hlt : i < (front ++ [e]).length := (List.getElem?_eq_some.mp hget).1
    simp only [List.length_append, List.length_singleton] at hlt
    omega

/-- C10: the EOF token is never matched or consumed.  (a) matchTerminal
fails on any state whose current token has kind EOF and empty text, for
every non-empty symbol, and leaves the state untouched; (b) at every
parseNonTerminal call the cursor bound `pos < len(tokens)` is preserved,
so the cursor never exceeds the index of the final EOF token; (c) hence
the parser state Parse returns has its cursor inside the token slice and
current() returns an element of the tokenized sequence — its
out-of-bounds fallback is unreachable; and (d) every grammar ParseGrammar
builds has only non-empty body symbols, which is what (a) needs. -/
theorem claim10_eof_unmatchable :
    (∀ (p : Parser) (sym : GoStr) (pid : Int), sym ≠ [] →
      p.current.typ = .EOF → p.current.Value = [] →
      ∃ e, p.matchTerminal sym pid = (.error e, p)) ∧
    (∀ (fuel : Nat) (sym : GoStr) (pid : Int) (p : Parser), wfSyms p.grammar →
      okTokens p.tokens → p.pos < p.tokens.length →
      (parseNonTerminal fuel sym pid p).2.pos <
        (parseNonTerminal fuel sym pid p).2.tokens.length) ∧
    (∀ (p : Parser) (input : List Nat) (b : Bool) (fuel : Nat), wfSyms p.grammar →
      (p.Parse input b fuel).2.pos < (p.Parse input b fuel).2.tokens.length ∧
      (p.Parse input b fuel).2.current ∈ (p.Parse input b fuel).2.tokens) ∧
    (∀ text : String, wfSyms (ParseGrammar text)) := by
  have hcur : ∀ q : Parser, q.pos < q.tokens.length → q.current ∈ q.tokens := by
    intro q hq
    rw [current_eq_getElem hq]
    exact List.getElem_mem hq
  refine ⟨?_, fun fuel => parseNonTerminal_pos fuel, ?_, wfSyms_parseGrammar⟩
  · intro p sym pid hsym ht hv
    unfold Parser.matchTerminal
    rw [terminalMatched_eof hsym ht hv]
    exact ⟨_, rfl⟩
  · intro p input b fuel hg
    have hok : okTokens (Tokenize input) := okTokens_tokenize input
    have hlen : 0 < (Tokenize input).length := by
      obtain ⟨front, eofPos, hts, -⟩ := hok
      rw [hts]
      simp
    suffices h : (p.Parse input b fuel).2.pos < (p.Parse input b fuel).2.tokens.length by
      exact ⟨h, hcur _ h⟩
    unfold Parser.Parse
    dsimp only
    split
    · exact hlen
    · split
      next e p1 heq =>
        have h1 := parseNonTerminal_pos fuel p.grammar.StartSymbol (-1)
          ⟨p.grammar, Tokenize input, 0, 0, [], b⟩ hg hok hlen
        rw [heq] at h1
        exact h1
      next tree p1 heq =>
        have h1 := parseNonTerminal_pos fuel p.grammar.StartSymbol (-1)
          ⟨p.grammar, Tokenize input, 0, 0, [], b⟩ hg hok hlen
        rw [heq] at h1
        split <;> exact h1

/-- Witness for C10: matchTerminal applied at a state sitting on the EOF
fallback token rejects the symbol x and leaves the state unchanged, and a
concrete parse of "2" with `F -> number` ends with its cursor inside the
token slice. -/
theorem claim10_witness :
    (∃ e, Parser.matchTerminal ⟨ParseGrammar "F -> number", [], 0, 0, [], false⟩ "x".data 0 =
      (.error e, ⟨ParseGrammar "F -> number", [], 0, 0, [], false⟩)) ∧
    ((NewParser (ParseGrammar "F -> number")).Parse (strBytes "2") false 10).2.pos <
      ((NewParser (ParseGrammar "F -> number")).Parse (strBytes "2") false 10).2.tokens.length := by
  constructor
  · exact claim10_eof_unmatchable.1 _ "x".data 0 (by decide) rfl rfl
  · exact (claim10_eof_unmatchable.2.2.1 (NewParser (ParseGrammar "F -> number"))
      (strBytes "2") false 10 (wfSyms_parseGrammar "F -> number")).1

/-- C3: exhaustive consumption.  Whenever Parse returns success the
cursor sits exactly on the final EOF token (all non-EOF tokens were
consumed); and whenever expansion of the start symbol succeeds but the
current token is not EOF, Parse returns failure with the trailing-input
error naming the unexpected token's text and its position. -/
theorem claim3_exhaustive_consumption (p : Parser) (input : List Nat) (b : Bool) (fuel : Nat)
    (hg : wfSyms p.grammar) :
    ((p.Parse input b fuel).1.Success = true →
      (p.Parse input b fuel).2.pos = (Tokenize input).length - 1 ∧
      (Tokenize input)[(p.Parse input b fuel).2.pos]? = some ⟨.EOF, [], input.length⟩) ∧
    (∀ (tree : TreeNode) (p1 : Parser), p.grammar.StartSymbol ≠ [] →
      parseNonTerminal fuel p.grammar.StartSymbol (-1)
        ⟨p.grammar, Tokenize input, 0, 0, [], b⟩ = (.ok tree, p1) →
      p1.current.typ ≠ .EOF →
      (p.Parse input b fuel).1.Success = false ∧
      (p.Parse input b fuel).1.Error = strBytes "Unexpected token '" ++ p1.current.Value ++
        strBytes "' at position " ++ decBytes p1.current.Position) := by
  obtain ⟨front, hts0, hfr⟩ := tokenizeAux_ends_eof (input.length + 1) input 0 (by omega)
  have hts : Tokenize input = front ++ [⟨.EOF, [], input.length⟩] := by
    show tokenizeAux (input.length + 1) input 0 = _
    simpa using hts0
  have hok : okTokens (Tokenize input) := ⟨front, input.length, hts, hfr⟩
  have hlen : 0 < (Tokenize input).length := by rw [hts]; simp
  constructor
  · unfold Parser.Parse
    dsimp only
    split
    · intro h
      simp at h
    · split
      next e p1 heq =>
        intro h
        simp at h
      next tree p1 heq =>
        have hst := parseNonTerminal_stPres fuel p.grammar.StartSymbol (-1)
          ⟨p.grammar, Tokenize input, 0, 0, [], b⟩
        have hp1 := parseNonTerminal_pos fuel p.grammar.StartSymbol (-1)
          ⟨p.grammar, Tokenize input, 0, 0, [], b⟩ hg hok hlen
        rw [heq] at hst hp1
        dsimp only at hst hp1
        have htokens : p1.tokens = Tokenize input := hst.tokens_eq
        have hp1t : p1.pos < p1.tokens.length := hp1
        rw [htokens] at hp1
        split
        next heof =>
          intro _
          have hget0 : p1.tokens[p1.pos]? = some p1.current := by
            rw [current_eq_getElem hp1t]
            exact (List.getElem?_eq_getElem hp1t)
          rw [htokens, hts] at hget0
          have hidx : p1.pos = front.length :=
            eof_only_last hfr hget0 (beq_iff_eq.mp heof)
          constructor
          · dsimp only
            rw [hidx, hts]
            simp
          · dsimp only
            rw [hidx, hts, getElem?_append_length]
        next heof =>
          intro h
          simp at h
  · intro tree p1 hne heq hnEOF
    unfold Parser.Parse
    dsimp only
    rw [if_neg hne, heq]
    dsimp only
    rw [if_neg (by simpa using hnEOF)]
    exact ⟨rfl, rfl⟩

/-- Witness for C3: the successful parse of "2" with `F -> number` ends
on the EOF token at index 1, and on "2 2" the expansion succeeds but the
second 2 is unconsumed, so Parse fails with the trailing-input error. -/
theorem claim3_witness :
    ((NewParser (ParseGrammar "F -> number")).Parse (strBytes "2") false 10).2.pos =
      (Tokenize (strBytes "2")).length - 1 ∧
    ((NewParser (ParseGrammar "F -> number")).Parse (strBytes "2 2") false 10).1.Success = false ∧
    ((NewParser (ParseGrammar "F -> number")).Parse (strBytes "2 2") false 10).1.Error =
      strBytes "Unexpected token '2' at position 2" := by
  refine ⟨?_, ?_⟩
  · exact ((claim3_exhaustive_consumption (NewParser (ParseGrammar "F -> number"))
      (strBytes "2") false 10 (wfSyms_parseGrammar "F -> number")).1 rfl).1
  · have h := (claim3_exhaustive_consumption (NewParser (ParseGrammar "F -> number"))
      (strBytes "2 2") false 10 (wfSyms_parseGrammar "F -> number")).2 _ _
      (by decide) rfl (by decide)
    exact ⟨h.1, h.2.trans (by decide)⟩

/-- C6: parsing "2" with step recording against the grammar `F -> number`
produces exactly two steps: step 1 "Expand non-terminal <F>" with the
root sentinel parent -1, and step 2 "Match terminal '2'" whose parent is
F's node id 1 (ids start at 1 by pre-increment, so the terminal node gets
id 2). -/
theorem claim6_two_steps :
    ((NewParser (ParseGrammar "F -> number")).Parse (strBytes "2") true 50).1.Steps =
      [⟨strBytes "add", strBytes "Expand non-terminal <F>", 1, -1⟩,
       ⟨strBytes "add", strBytes "Match terminal '2'", 2, 1⟩] := rfl

/-- C4 counterexample: on the default arithmetic grammar and input "3 +",
Parse does fail, but the error is not an unmatched/missing-terminal
message about what follows the `+` (every unmatched-terminal error the
engine produces begins with `expected '`): it is the trailing-input
message naming the `+` itself, because backtracking discards the failed
`+ T E'` attempt and commits to `E' → ε`. -/
theorem claim4_counterexample :
    (ParseWithDefaultGrammar (strBytes "3 +") false 50).1.Success = false ∧
    (ParseWithDefaultGrammar (strBytes "3 +") false 50).1.Error =
      strBytes "Unexpected token '+' at position 2" ∧
    ¬ strBytes "expected '" <+:
      (ParseWithDefaultGrammar (strBytes "3 +") false 50).1.Error := by
  refine ⟨rfl, rfl, ?_⟩
  decide

/-- C4 as amended: with the default arithmetic grammar and input "3 +",
Parse returns failure, and the error is the trailing-input message
`Unexpected token '+' at position 2` naming the unconsumed `+` and its
byte position (expansion of E succeeds via `E' → ε` after the `+ T E'`
attempt is rolled back, so the failure surfaces at the whole-input
consumption check, not inside matchTerminal). -/
theorem claim4_amended :
    (ParseWithDefaultGrammar (strBytes "3 +") false 50).1 =
      ⟨false, none, [], strBytes "Unexpected token '+' at position 2",
        Tokenize (strBytes "3 +")⟩ := rfl

/-- C5 counterexample: in the grammar text "S -> X\nX ->" the bodiless
line registers a production entry for X with zero alternatives, and X is
referenced in S's body; yet ValidateGrammar reports the grammar valid
with no errors, not invalid with an error mentioning X. -/
theorem claim5_counterexample :
    (ValidateGrammar (ParseGrammar "S -> X\nX ->")).Valid = true ∧
    (ValidateGrammar (ParseGrammar "S -> X\nX ->")).Errors = [] ∧
    lookupProd (ParseGrammar "S -> X\nX ->").Productions "X".data =
      some ⟨"X".data, []⟩ ∧
    lookupProd (ParseGrammar "S -> X\nX ->").Productions "S".data =
      some ⟨"S".data, [["X".data]]⟩ := ⟨rfl, rfl, rfl, rfl⟩

/-- C8 counterexample: parseSymbols does not preserve an identifier that
merely contains the letter sequence "epsilon": strings.ReplaceAll
rewrites the substring wherever it occurs, so "xepsilony" is split into
three symbols x, ε, y instead of staying one symbol. -/
theorem claim8_counterexample :
    parseSymbols "xepsilony".data = ["x".data, "ε".data, "y".data] ∧
    parseSymbols "xepsilony".data ≠ ["xepsilony".data] := by
  refine ⟨rfl, ?_⟩
  decide

theorem replaceAllAux_of_not_contains {pat : GoStr} (rep : GoStr) :
    ∀ (fuel : Nat) (s : GoStr), containsSub pat s = false → replaceAllAux pat rep fuel s = s := by
  intro fuel
  induction fuel with
  | zero => intro s _; cases s <;> rfl
  | succ fuel ih =>
    intro s hc
    cases s with
    | nil => rfl
    | cons c rest =>
      simp only [containsSub, Bool.or_eq_false_iff] at hc
      rw [replaceAllAux, if_neg (by simp [hc.1]), ih rest hc.2]

theorem replaceAll_of_not_contains {s pat : GoStr} (rep : GoStr)
    (hc : containsSub pat s = false) : replaceAll s pat rep = s :=
  replaceAllAux_of_not_contains rep s.length s hc

theorem dropWhile_of_forall_false {p : Char → Bool} :
    ∀ {l : GoStr}, (∀ c ∈ l, p c = false) → l.dropWhile p = l := by
  intro l h
  cases l with
  | nil => rfl
  | cons c rest => rw [List.dropWhile_cons, if_neg (by simp [h c (List.mem_cons_self c rest)])]

theorem goTrim_of_no_space {w : GoStr} (h : ∀ c ∈ w, isGoSpace c = false) : goTrim w = w := by
  unfold goTrim
  rw [dropWhile_of_forall_false h, dropWhile_of_forall_false (by simpa using h), List.reverse_reverse]

/-- Every word strings.Fields yields is non-empty and free of space
characters. -/
theorem fieldsAux_words : ∀ (s acc : GoStr), (∀ c ∈ acc, isGoSpace c = false) →
    ∀ w ∈ fieldsAux s acc, w ≠ [] ∧ ∀ c ∈ w, isGoSpace c = false := by
  intro s
  induction s with
  | nil =>
    intro acc hacc w hw
    by_cases h : acc = []
    · simp [fieldsAux, h] at hw
    · simp only [fieldsAux, if_neg h, List.mem_singleton] at hw
      subst hw
      exact ⟨by simpa using h, by simpa using hacc⟩
  | cons c rest ih =>
    intro acc hacc w hw
    by_cases hs : isGoSpace c
    · by_cases h : acc = []
      · rw [show fieldsAux (c :: rest) acc = fieldsAux rest [] by
          simp [fieldsAux, hs, h]] at hw
        exact ih [] (by simp) w hw
      · rw [show fieldsAux (c :: rest) acc = acc.reverse :: fieldsAux rest [] by
          simp [fieldsAux, hs, h]] at hw
        rw [List.mem_cons] at hw
        rcases hw with rfl | hw
        · exact ⟨by simpa using h, by simpa using hacc⟩
        · exact ih [] (by simp) w hw
    · rw [show fieldsAux (c :: rest) acc = fieldsAux rest (c :: acc) by
        simp [fieldsAux, hs]] at hw
      refine ih (c :: acc) ?_ w hw
      intro d hd
      rw [List.mem_cons] at hd
      rcases hd with rfl | hd
      · simpa using hs
      · exact hacc d hd

theorem goFields_words {s : GoStr} :
    ∀ w ∈ goFields s, w ≠ [] ∧ ∀ c ∈ w, isGoSpace c = false :=
  fieldsAux_words s [] (by simp)

/-- C8 as amended: parseSymbols tokenizes each alternative by whitespace
after replacing every occurrence of the substring ε or epsilon — even
inside a longer identifier — by a padded standalone ε, so a body free of
both substrings is tokenized verbatim into its whitespace-separated
fields, while an identifier such as "xepsilony" that merely contains the
letter sequence epsilon is split into the three symbols x, ε, y rather
than preserved. -/
theorem claim8_amended :
    (∀ body : GoStr, containsSub "ε".data body = false →
      containsSub "epsilon".data body = false →
      parseSymbols body = goFields body) ∧
    parseSymbols "xepsilony".data = ["x".data, "ε".data, "y".data] := by
  refine ⟨?_, rfl⟩
  intro body h1 h2
  have hdef : parseSymbols body =
      ((goFields (replaceAll (replaceAll body "ε".data " ε ".data)
        "epsilon".data " ε ".data)).map goTrim).filter (fun x => decide (x ≠ [])) := rfl
  rw [hdef, replaceAll_of_not_contains _ h1, replaceAll_of_not_contains _ h2]
  have htrim : (goFields body).map goTrim = goFields body := by
    have h3 : ∀ w ∈ goFields body, goTrim w = id w := fun w hw =>
      goTrim_of_no_space (goFields_words w hw).2
    rw [List.map_congr_left h3, List.map_id]
  rw [htrim, List.filter_eq_self.mpr]
  intro w hw
  simpa using (goFields_words w hw).1

/-- Witness for C8's amended statement: a body with no epsilon substring
is preserved verbatim as its whitespace fields. -/
theorem claim8_witness : parseSymbols "a b".data = goFields "a b".data :=
  claim8_amended.1 "a b".data (by decide) (by decide)

/-- Every error in the undefined-non-terminal pass names a symbol that is
registered as a non-terminal but has no production entry. -/
theorem undefinedErrors_mem {g : Grammar} {e : GoStr} (he : e ∈ undefinedErrors g) :
    ∃ sym : GoStr,
      (g.NonTerminals.contains sym && (lookupProd g.Productions sym).isNone) = true ∧
      e = "Undefined non-terminal: ".data ++ sym := by
  simp only [undefinedErrors, List.mem_flatMap, List.mem_filterMap] at he
  obtain ⟨kp, -, alt, -, sym, -, hif⟩ := he
  by_cases hc : (g.NonTerminals.contains sym && (lookupProd g.Productions sym).isNone) = true
  · rw [if_pos hc] at hif
    exact ⟨sym, hc, (Option.some.injEq _ _ ▸ hif).symm⟩
  · rw [if_neg hc] at hif
    exact absurd hif (by simp)

/-- C5 as amended: a bodiless line `X ->` contributes zero alternatives
to X's production but still registers a production entry for X, and
ValidateGrammar's undefined-non-terminal check only fires for symbols
with no production entry at all — so no such error can mention a symbol
that has an entry, and the grammar "S -> X\nX ->" validates as valid even
though X is referenced in S's body. -/
theorem claim5_amended :
    (∀ (g : Grammar) (X : GoStr), (lookupProd g.Productions X).isSome = true →
      "Undefined non-terminal: ".data ++ X ∉ (ValidateGrammar g).Errors) ∧
    lookupProd (ParseGrammar "S -> X\nX ->").Productions "X".data = some ⟨"X".data, []⟩ ∧
    lookupProd (ParseGrammar "S -> X\nX ->").Productions "S".data = some ⟨"S".data, [["X".data]]⟩ ∧
    (ValidateGrammar (ParseGrammar "S -> X\nX ->")).Valid = true := by
  refine ⟨?_, rfl, rfl, rfl⟩
  intro g X hX hmem
  unfold ValidateGrammar at hmem
  by_cases h1 : g.StartSymbol = []
  · rw [if_pos h1] at hmem
    simp only [List.mem_singleton] at hmem
    have h2 := congrArg List.head? hmem
    rw [show ("Undefined non-terminal: ".data ++ X).head? = some 'U' from rfl] at h2
    rw [show ("No start symbol defined".data).head? = some 'N' from rfl] at h2
    exact absurd h2 (by decide)
  · rw [if_neg h1] at hmem
    by_cases h2 : (lookupProd g.Productions g.StartSymbol).isNone
    · rw [if_pos h2] at hmem
      simp only [List.mem_singleton] at hmem
      have h3 := congrArg List.head? hmem
      rw [show ("Undefined non-terminal: ".data ++ X).head? = some 'U' from rfl] at h3
      rw [show ("Start symbol has no productions".data).head? = some 'S' from rfl] at h3
      exact absurd h3 (by decide)
    · rw [if_neg h2] at hmem
      simp only at hmem
      obtain ⟨sym, hc, heq⟩ := undefinedErrors_mem hmem
      have hXs : X = sym := List.append_cancel_left heq
      subst hXs
      rw [Bool.and_eq_true] at hc
      rw [Option.isNone_iff_eq_none.mp hc.2] at hX
      exact absurd hX (by simp)

/-- Witness for C5's amended statement: applied to the concrete grammar
"S -> X\nX ->" and symbol X, whose production entry exists. -/
theorem claim5_witness :
    "Undefined non-terminal: ".data ++ "X".data ∉
      (ValidateGrammar (ParseGrammar "S -> X\nX ->")).Errors :=
  claim5_amended.1 (ParseGrammar "S -> X\nX ->") "X".data (by decide)

/-- C9: Parse is a deterministic function of the grammar, the input and
the recordSteps flag (at any fixed recursion budget): the method resets
every mutable field of the receiver (tokens, cursor, node-id counter,
step log, flag) before parsing, so two parsers sharing a grammar return
identical results — same success flag, tree with node ids, step log and
token sequence — whatever states they carry. -/
theorem claim9_determinism (p q : Parser) (hg : p.grammar = q.grammar)
    (input : List Nat) (recordSteps : Bool) (fuel : Nat) :
    (p.Parse input recordSteps fuel).1 = (q.Parse input recordSteps fuel).1 := by
  unfold Parser.Parse
  rw [hg]

/-- Witness for C9: a parser carrying stale cursor/step/counter state and
a fresh one agree on the full result. -/
theorem claim9_witness :
    ((⟨ParseGrammar "F -> number", Tokenize (strBytes "zzz"), 5, 7,
        [⟨strBytes "add", strBytes "junk", 9, 9⟩], true⟩ : Parser).Parse
        (strBytes "2") true 20).1 =
    ((NewParser (ParseGrammar "F -> number")).Parse (strBytes "2") true 20).1 :=
  claim9_determinism _ _ rfl _ _ _

/-! ### Decoding a recorded step recovers the node's label and flag -/

/-- What buildStepDescription writes, decodeStep reads back: the epsilon
description round-trips the ε label, the terminal description quotes the
label verbatim, and the expand description brackets it. -/
theorem decode_build (a : List Nat) (l : List Nat) (b : Bool) (i pid : Int) :
    decodeStep ⟨a, buildStepDescription l b, i, pid⟩ = (l, b) := by
  cases b with
  | false =>
    have hshape : buildStepDescription l false =
        strBytes "Expand non-terminal <" ++ (l ++ strBytes ">") := by
      show strBytes "Expand non-terminal <" ++ l ++ strBytes ">" = _
      exact List.append_assoc _ _ _
    have hne1 : strBytes "Expand non-terminal <" ++ (l ++ strBytes ">") ≠
        strBytes "Match epsilon (empty string)" := by
      intro h
      have h0 : (strBytes "Expand non-terminal <" ++ (l ++ strBytes ">"))[(0 : Nat)]? =
          (strBytes "Match epsilon (empty string)")[(0 : Nat)]? := by rw [h]
      rw [show (strBytes "Expand non-terminal <" ++
        (l ++ strBytes ">"))[(0 : Nat)]? = some 69 from rfl] at h0
      exact absurd h0 (by decide)
    have hne2 : ((strBytes "Match terminal '").isPrefixOf
        (strBytes "Expand non-terminal <" ++ (l ++ strBytes ">"))) ≠ true := by
      rw [show ((strBytes "Match terminal '").isPrefixOf
        (strBytes "Expand non-terminal <" ++ (l ++ strBytes ">"))) = false from rfl]
      simp
    rw [decodeStep]
    dsimp only
    rw [hshape, if_neg hne1, if_neg hne2]
    rw [List.drop_left]
    rw [show strBytes ">" = [62] from rfl, List.dropLast_concat]
  | true =>
    by_cases hl : l = strBytes "ε"
    · subst hl
      have hshape : buildStepDescription (strBytes "ε") true =
          strBytes "Match epsilon (empty string)" := rfl
      rw [decodeStep]
      dsimp only
      rw [hshape, if_pos rfl]
    · have hshape : buildStepDescription l true =
          strBytes "Match terminal '" ++ (l ++ strBytes "'") := by
        show (if l = strBytes "ε" then strBytes "Match epsilon (empty string)"
          else strBytes "Match terminal '" ++ l ++ strBytes "'") = _
        rw [if_neg hl]
        exact List.append_assoc _ _ _
      have hne1 : strBytes "Match terminal '" ++ (l ++ strBytes "'") ≠
          strBytes "Match epsilon (empty string)" := by
        intro h
        have h6 : (strBytes "Match terminal '" ++ (l ++ strBytes "'"))[(6 : Nat)]? =
            (strBytes "Match epsilon (empty string)")[(6 : Nat)]? := by rw [h]
        rw [show (strBytes "Match terminal '" ++
          (l ++ strBytes "'"))[(6 : Nat)]? = some 116 from rfl] at h6
        exact absurd h6 (by decide)
      have hpre : ((strBytes "Match terminal '").isPrefixOf
          (strBytes "Match terminal '" ++ (l ++ strBytes "'"))) = true := by
        rw [List.isPrefixOf_iff_prefix]
        exact List.prefix_append _ _
      rw [decodeStep]
      dsimp only
      rw [hshape, if_neg hne1, if_pos hpre]
      rw [List.drop_left]
      rw [show strBytes "'" = [39] from rfl, List.dropLast_concat]

/-! ### Preorder id checks -/

mutual
theorem chkT_lt : ∀ (t : TreeNode) (lo m : Int), chkT lo t = some m → lo < m
  | .mk i l cs b, lo, m, h => by
    rw [chkT] at h
    split at h
    next hlo => exact lt_of_lt_of_le hlo (chkL_le cs i m h)
    next => exact absurd h (by simp)
theorem chkL_le : ∀ (ts : TreeList) (lo m : Int), chkL lo ts = some m → lo ≤ m
  | .nil, lo, m, h => by
    rw [chkL, Option.some.injEq] at h
    omega
  | .cons t ts, lo, m, h => by
    rw [chkL] at h
    split at h
    next m1 heq => exact le_of_lt (lt_of_lt_of_le (chkT_lt t lo m1 heq) (chkL_le ts m1 m h))
    next => exact absurd h (by simp)
end

mutual
theorem chkT_ids : ∀ (t : TreeNode) (lo m : Int), chkT lo t = some m →
    ∀ j ∈ idsT t, lo < j ∧ j ≤ m
  | .mk i l cs b, lo, m, h => by
    rw [chkT] at h
    split at h
    next hlo =>
      intro j hj
      rw [idsT] at hj
      rcases List.mem_cons.mp hj with rfl | hj
      · exact ⟨hlo, chkL_le cs j m h⟩
      · have h2 := chkL_ids cs i m h j hj
        exact ⟨lt_trans hlo h2.1, h2.2⟩
    next => exact absurd h (by simp)
theorem chkL_ids : ∀ (ts : TreeList) (lo m : Int), chkL lo ts = some m →
    ∀ j ∈ idsL ts, lo < j ∧ j ≤ m
  | .nil, lo, m, h => by
    intro j hj
    rw [idsL] at hj
    simp at hj
  | .cons t ts, lo, m, h => by
    rw [chkL] at h
    split at h
    next m1 heq =>
      intro j hj
      rw [idsL] at hj
      rcases List.mem_append.mp hj with hj | hj
      · have h2 := chkT_ids t lo m1 heq j hj
        exact ⟨h2.1, le_trans h2.2 (chkL_le ts m1 m h)⟩
      · have h2 := chkL_ids ts m1 m h j hj
        exact ⟨lt_trans (chkT_lt t lo m1 heq) h2.1, h2.2⟩
    next => exact absurd h (by simp)
end

theorem chkT_weaken {lo2 lo m : Int} {t : TreeNode} (hle : lo2 ≤ lo)
    (h : chkT lo t = some m) : chkT lo2 t = some m := by
  cases t with
  | mk i l cs b =>
    rw [chkT] at h ⊢
    split at h
    next hlo =>
      rw [if_pos (lt_of_le_of_lt hle hlo)]
      exact h
    next => exact absurd h (by simp)

theorem chkL_weaken {lo2 lo m : Int} {ts : TreeList} (hle : lo2 ≤ lo)
    (h : chkL lo ts = some m) : ∃ m2, chkL lo2 ts = some m2 ∧ m2 ≤ m ∧ lo2 ≤ m2 := by
  cases ts with
  | nil =>
    rw [chkL, Option.some.injEq] at h
    exact ⟨lo2, by rw [chkL], by omega, le_refl _⟩
  | cons t ts =>
    rw [chkL] at h
    split at h
    next m1 heq =>
      refine ⟨m, ?_, le_refl _, ?_⟩
      · rw [chkL, chkT_weaken hle heq]
        exact h
      · exact le_trans hle (le_of_lt (lt_of_lt_of_le (chkT_lt t lo m1 heq) (chkL_le ts m1 m h)))
    next => exact absurd h (by simp)

/-! ### Attach surgery -/

theorem appendTL_nil : ∀ (xs : TreeList), appendTL xs .nil = xs
  | .nil => rfl
  | .cons x xs => by rw [appendTL, appendTL_nil xs]

theorem appendTL_assoc : ∀ (xs ys zs : TreeList),
    appendTL (appendTL xs ys) zs = appendTL xs (appendTL ys zs)
  | .nil, ys, zs => rfl
  | .cons x xs, ys, zs => by
    rw [appendTL, appendTL, appendTL, appendTL_assoc xs ys zs]

theorem idsL_append : ∀ (xs ys : TreeList), idsL (appendTL xs ys) = idsL xs ++ idsL ys
  | .nil, ys => by rw [appendTL, idsL]; simp
  | .cons x xs, ys => by
    rw [appendTL, idsL, idsL, idsL_append xs ys, List.append_assoc]

mutual
theorem attach_none_iff_T : ∀ (t : TreeNode) (pid : Int) (c : TreeNode),
    attachT pid c t = none ↔ pid ∉ idsT t
  | .mk i l cs b, pid, c => by
    rw [attachT, idsT]
    by_cases hip : i = pid
    · rw [if_pos hip]
      simp [hip]
    · rw [if_neg hip]
      have hiff := attach_none_iff_L cs pid c
      constructor
      · intro h
        split at h
        · exact absurd h (by simp)
        next hnone =>
          intro hmem
          rcases List.mem_cons.mp hmem with h2 | h2
          · exact hip h2.symm
          · exact (hiff.mp hnone) h2
      · intro hmem
        have hnone : attachL pid c cs = none :=
          hiff.mpr (fun h2 => hmem (List.mem_cons_of_mem _ h2))
        rw [hnone]
theorem attach_none_iff_L : ∀ (ts : TreeList) (pid : Int) (c : TreeNode),
    attachL pid c ts = none ↔ pid ∉ idsL ts
  | .nil, pid, c => by
    rw [attachL, idsL]
    simp
  | .cons t ts, pid, c => by
    rw [attachL, idsL]
    have hT := attach_none_iff_T t pid c
    have hL := attach_none_iff_L ts pid c
    constructor
    · intro h
      split at h
      · exact absurd h (by simp)
      next hnone1 =>
        split at h
        · exact absurd h (by simp)
        next hnone2 =>
          intro hmem
          rcases List.mem_append.mp hmem with h2 | h2
          · exact (hT.mp hnone1) h2
          · exact (hL.mp hnone2) h2
    · intro hmem
      rw [hT.mpr (fun h2 => hmem (List.mem_append_left _ h2)),
        hL.mpr (fun h2 => hmem (List.mem_append_right _ h2))]
end

theorem attach_isSome_T {t : TreeNode} {pid : Int} {c : TreeNode} (h : pid ∈ idsT t) :
    ∃ t2, attachT pid c t = some t2 := by
  cases h2 : attachT pid c t with
  | some t2 => exact ⟨t2, rfl⟩
  | none => exact absurd h ((attach_none_iff_T t pid c).mp h2)

mutual
theorem ids_attachT : ∀ (t : TreeNode) (pid : Int) (c t2 : TreeNode),
    attachT pid c t = some t2 → ∀ j, j ∈ idsT t2 ↔ j ∈ idsT t ∨ j ∈ idsT c
  | .mk i l cs b, pid, c, t2, h => by
    rw [attachT] at h
    split at h
    next hip =>
      rw [Option.some.injEq] at h
      subst h
      intro j
      simp only [idsT, snocTL, idsL_append, idsL, List.mem_cons, List.mem_append,
        List.append_nil, List.not_mem_nil, or_false]
      tauto
    next hip =>
      split at h
      next cs2 heq =>
        rw [Option.some.injEq] at h
        subst h
        intro j
        have hids := ids_attachL cs pid c cs2 heq j
        simp only [idsT, List.mem_cons, hids]
        tauto
      next => exact absurd h (by simp)
theorem ids_attachL : ∀ (ts : TreeList) (pid : Int) (c : TreeNode) (ts2 : TreeList),
    attachL pid c ts = some ts2 → ∀ j, j ∈ idsL ts2 ↔ j ∈ idsL ts ∨ j ∈ idsT c
  | .nil, pid, c, ts2, h => by
    rw [attachL] at h
    exact absurd h (by simp)
  | .cons t ts, pid, c, ts2, h => by
    rw [attachL] at h
    split at h
    next t2 heq =>
      rw [Option.some.injEq] at h
      subst h
      intro j
      simp only [idsL, List.mem_append, ids_attachT t pid c t2 heq j]
      tauto
    next =>
      split at h
      next ts3 heq =>
        rw [Option.some.injEq] at h
        subst h
        intro j
        simp only [idsL, List.mem_append, ids_attachL ts pid c ts3 heq j]
        tauto
      next => exact absurd h (by simp)
end

/-- Attaching skips over a child-list prefix that does not contain the
target id. -/
theorem attachL_skip : ∀ (xs ys : TreeList) (pid : Int) (c : TreeNode),
    pid ∉ idsL xs →
    attachL pid c (appendTL xs ys) =
      (match attachL pid c ys with
       | some ys2 => some (appendTL xs ys2)
       | none => none)
  | .nil, ys, pid, c, _ => by
    rw [appendTL]
    cases h : attachL pid c ys <;> simp [appendTL]
  | .cons x xs, ys, pid, c, hmem => by
    rw [appendTL, attachL]
    rw [(attach_none_iff_T x pid c).mpr (fun h2 => hmem (by
      rw [idsL]; exact List.mem_append_left _ h2))]
    rw [attachL_skip xs ys pid c (fun h2 => hmem (by
      rw [idsL]; exact List.mem_append_right _ h2))]
    cases h : attachL pid c ys <;> simp [appendTL]

mutual
/-- Attach composition: once a subtree rooted at a fresh id `i` has been
attached under `pid`, attaching a further child under `i` lands inside
that copy, and equals attaching the enlarged subtree in one go. -/
theorem attach_comp_T : ∀ (tp : TreeNode) (pid i : Int) (l : List Nat) (cs : TreeList)
    (b : Bool) (c tp2 : TreeNode),
    i ∉ idsT tp → i ∉ idsL cs →
    attachT pid (.mk i l cs b) tp = some tp2 →
    attachT i c tp2 = attachT pid (.mk i l (snocTL cs c) b) tp
  | .mk j l2 cs2 b2, pid, i, l, cs, b, c, tp2, hitp, hics, h => by
    have hji : j ≠ i := fun h2 => hitp (by rw [idsT, h2]; exact List.mem_cons_self _ _)
    have hics2 : i ∉ idsL cs2 := fun h2 => hitp (by rw [idsT]; exact List.mem_cons_of_mem _ h2)
    rw [attachT] at h
    split at h
    next hjp =>
      rw [Option.some.injEq] at h
      subst h
      rw [attachT, if_neg hji, attachT, if_pos hjp]
      rw [snocTL, attachL_skip cs2 (.cons (.mk i l cs b) .nil) i c hics2]
      rw [show attachL i c (.cons (.mk i l cs b) .nil) =
        some (.cons (.mk i l (snocTL cs c) b) .nil) from by
          rw [attachL, attachT, if_pos rfl]]
      rfl
    next hjp =>
      split at h
      next cs3 heq =>
        rw [Option.some.injEq] at h
        subst h
        rw [attachT, if_neg hji, attachT, if_neg hjp]
        rw [attach_comp_L cs2 pid i l cs b c cs3 hics2 hics heq]
      next => exact absurd h (by simp)
theorem attach_comp_L : ∀ (ts : TreeList) (pid i : Int) (l : List Nat) (cs : TreeList)
    (b : Bool) (c : TreeNode) (ts2 : TreeList),
    i ∉ idsL ts → i ∉ idsL cs →
    attachL pid (.mk i l cs b) ts = some ts2 →
    attachL i c ts2 = attachL pid (.mk i l (snocTL cs c) b) ts
  | .nil, pid, i, l, cs, b, c, ts2, _, _, h => by
    rw [attachL] at h
    exact absurd h (by simp)
  | .cons t ts, pid, i, l, cs, b, c, ts2, hits, hics, h => by
    have hit : i ∉ idsT t := fun h2 => hits (by rw [idsL]; exact List.mem_append_left _ h2)
    have hirest : i ∉ idsL ts := fun h2 => hits (by rw [idsL]; exact List.mem_append_right _ h2)
    rw [attachL] at h
    split at h
    next t2 heq =>
      rw [Option.some.injEq] at h
      subst h
      have hpid : pid ∈ idsT t := by
        by_contra hpid
        rw [(attach_none_iff_T t pid (.mk i l cs b)).mpr hpid] at heq
        exact absurd heq (by simp)
      obtain ⟨t3, ht3⟩ := attach_isSome_T (c := TreeNode.mk i l (snocTL cs c) b) hpid
      rw [attachL, attach_comp_T t pid i l cs b c t2 hit hics heq, ht3, attachL, ht3]
    next hnone1 =>
      split at h
      next ts3 heq =>
        rw [Option.some.injEq] at h
        subst h
        rw [attachL, (attach_none_iff_T t i c).mpr hit]
        rw [attach_comp_L ts pid i l cs b c ts3 hirest hics heq]
        rw [attachL]
        rw [show attachT pid (TreeNode.mk i l (snocTL cs c) b) t = none from
          (attach_none_iff_T t pid _).mpr ((attach_none_iff_T t pid _).mp hnone1)]
      next => exact absurd h (by simp)
end

/-- Folding whole-subtree attaches under a fresh id `i` collapses into a
single attach of the subtree with the children appended. -/
theorem attachFold_collapse : ∀ (cs : TreeList) (tp : TreeNode) (pid i : Int) (l : List Nat)
    (cs0 : TreeList) (b : Bool),
    pid ∈ idsT tp → i ∉ idsT tp → i ∉ idsL cs0 → i ∉ idsL cs →
    attachFold i cs (attachT pid (.mk i l cs0 b) tp) =
      attachT pid (.mk i l (appendTL cs0 cs) b) tp
  | .nil, tp, pid, i, l, cs0, b, _, _, _, _ => by
    rw [attachFold, appendTL_nil]
  | .cons c cs, tp, pid, i, l, cs0, b, hpid, hitp, hics0, hicc => by
    have hic : i ∉ idsT c := fun h2 => hicc (by rw [idsL]; exact List.mem_append_left _ h2)
    have hicsr : i ∉ idsL cs := fun h2 => hicc (by rw [idsL]; exact List.mem_append_right _ h2)
    obtain ⟨tp2, htp2⟩ := attach_isSome_T (c := TreeNode.mk i l cs0 b) hpid
    rw [attachFold, htp2]
    rw [show (some tp2).bind (attachT i c) = attachT i c tp2 from rfl]
    rw [attach_comp_T tp pid i l cs0 b c tp2 hitp hics0 htp2]
    rw [show snocTL cs0 c = appendTL cs0 (.cons c .nil) from rfl]
    rw [attachFold_collapse cs tp pid i l (appendTL cs0 (.cons c .nil)) b hpid hitp
      (by
        rw [idsL_append]
        intro h2
        rcases List.mem_append.mp h2 with h3 | h3
        · exact hics0 h3
        · rw [idsL, idsL, List.append_nil] at h3
          exact hic h3) hicsr]
    rw [appendTL_assoc]
    rw [show appendTL (.cons c .nil) cs = .cons c cs from rfl]

/-- Folding attaches under the root id of a bare root collapses into the
root with the children appended. -/
theorem attachFold_root : ∀ (cs : TreeList) (i : Int) (l : List Nat) (cs0 : TreeList) (b : Bool),
    attachFold i cs (some (.mk i l cs0 b)) = some (.mk i l (appendTL cs0 cs) b)
  | .nil, i, l, cs0, b => by rw [attachFold, appendTL_nil]
  | .cons c cs, i, l, cs0, b => by
    rw [attachFold]
    rw [show (some (TreeNode.mk i l cs0 b)).bind (attachT i c) =
      attachT i c (.mk i l cs0 b) from rfl]
    rw [show attachT i c (TreeNode.mk i l cs0 b) = some (.mk i l (snocTL cs0 c) b) from by
      rw [attachT, if_pos rfl]]
    rw [attachFold_root cs i l (snocTL cs0 c) b]
    rw [show snocTL cs0 c = appendTL cs0 (.cons c .nil) from rfl, appendTL_assoc]
    rw [show appendTL (.cons c .nil) cs = .cons c cs from rfl]

mutual
/-- Replaying the recorded steps of a finished subtree onto a partial
tree whose ids are all at most `lo` (and non-negative) attaches exactly
that subtree under `pid`. -/
theorem replay_subtree : ∀ (nd : TreeNode) (lo m : Int) (tp : TreeNode) (pid : Int),
    chkT lo nd = some m → 0 ≤ lo → pid ∈ idsT tp → (∀ j ∈ idsT tp, 0 ≤ j ∧ j ≤ lo) →
    List.foldl replayStep (some tp) (stepsOf pid nd) = attachT pid nd tp
  | .mk i l cs b, lo, m, tp, pid, h, hlo0, hpid, htp => by
    rw [chkT] at h
    split at h
    next hlo =>
      rw [stepsOf, List.foldl_cons]
      have hpid0 : (0 : Int) ≤ pid := (htp pid hpid).1
      rw [show replayStep (some tp)
          ⟨strBytes "add", buildStepDescription l b, i, pid⟩ =
          attachT pid (.mk i l .nil b) tp from by
        rw [replayStep, if_neg (by show ¬pid = (-1 : Int); omega), decode_build]]
      obtain ⟨tp2, htp2⟩ := attach_isSome_T (c := TreeNode.mk i l .nil b) hpid
      rw [htp2]
      have hids2 : ∀ j ∈ idsT tp2, 0 ≤ j ∧ j ≤ i := by
        intro j hj
        rcases (ids_attachT tp pid _ tp2 htp2 j).mp hj with hj | hj
        · have h2 := htp j hj
          exact ⟨h2.1, by omega⟩
        · rw [idsT, idsL] at hj
          simp only [List.mem_singleton] at hj
          subst hj
          exact ⟨by omega, le_refl _⟩
      have hitp : i ∉ idsT tp := fun h2 => by
        have h3 := htp i h2
        omega
      rw [replay_children cs i m tp2 i h (by omega)
        ((ids_attachT tp pid _ tp2 htp2 i).mpr (Or.inr (by
          rw [idsT]; exact List.mem_cons_self _ _))) hids2]
      rw [← htp2]
      rw [attachFold_collapse cs tp pid i l .nil b hpid hitp (by rw [idsL]; simp)
        (fun h2 => by
          have h3 := chkL_ids cs i m h i h2
          omega)]
      rw [show appendTL .nil cs = cs from rfl]
    next => exact absurd h (by simp)
/-- Replaying the concatenated steps of a child list, all parented at a
node `i` present in the partial tree, performs the sequential
whole-subtree attaches. -/
theorem replay_children : ∀ (cs : TreeList) (lo m : Int) (tp : TreeNode) (i : Int),
    chkL lo cs = some m → 0 ≤ lo → i ∈ idsT tp → (∀ j ∈ idsT tp, 0 ≤ j ∧ j ≤ lo) →
    List.foldl replayStep (some tp) (stepsOfL i cs) = attachFold i cs (some tp)
  | .nil, lo, m, tp, i, h, _, _, _ => by
    rw [stepsOfL, attachFold, List.foldl_nil]
  | .cons c cs, lo, m, tp, i, h, hlo0, hitp, htp => by
    rw [chkL] at h
    split at h
    next m1 heq =>
      rw [stepsOfL, List.foldl_append]
      rw [replay_subtree c lo m1 tp i heq hlo0 hitp htp]
      obtain ⟨tp2, htp2⟩ := attach_isSome_T (c := c) hitp
      rw [htp2]
      have hlom1 : lo < m1 := chkT_lt c lo m1 heq
      have hids2 : ∀ j ∈ idsT tp2, 0 ≤ j ∧ j ≤ m1 := by
        intro j hj
        rcases (ids_attachT tp i c tp2 htp2 j).mp hj with hj | hj
        · have h2 := htp j hj
          exact ⟨h2.1, by omega⟩
        · have h2 := chkT_ids c lo m1 heq j hj
          exact ⟨by omega, h2.2⟩
      rw [replay_children cs m1 m tp2 i h (by omega)
        ((ids_attachT tp i c tp2 htp2 i).mpr (Or.inl hitp)) hids2]
      rw [attachFold, show (some tp).bind (attachT i c) = attachT i c tp from rfl, htp2]
    next => exact absurd h (by simp)
end

/-- Replaying the full step log of a finished tree from the empty replay
state rebuilds exactly that tree. -/
theorem replay_full {nd : TreeNode} {m : Int} (h : chkT 0 nd = some m) :
    replaySteps (stepsOf (-1) nd) = some nd := by
  cases nd with
  | mk i l cs b =>
    rw [chkT] at h
    split at h
    next hlo =>
      rw [replaySteps, stepsOf, List.foldl_cons]
      rw [show replayStep none ⟨strBytes "add", buildStepDescription l b, i, (-1 : Int)⟩ =
        some (.mk i l .nil b) from by rw [replayStep, if_pos rfl, decode_build]]
      rw [replay_children cs i m (.mk i l .nil b) i h (by omega)
        (by rw [idsT]; exact List.mem_cons_self _ _)
        (by
          intro j hj
          rw [idsT, idsL] at hj
          simp only [List.mem_singleton] at hj
          subst hj
          exact ⟨by omega, le_refl _⟩)]
      rw [attachFold_root]
      rw [show appendTL .nil cs = cs from rfl]
    next => exact absurd h (by simp)

/-! ### The engine's step log on success is exactly the preorder listing -/

theorem createNode_record (p : Parser) (l : List Nat) (b : Bool) (pid : Int)
    (hrec : p.recordSteps = true) :
    (p.createNode l b pid).2.steps =
      p.steps ++ [⟨strBytes "add", buildStepDescription l b, p.nodeID + 1, pid⟩] ∧
    (p.createNode l b pid).2.nodeID = p.nodeID + 1 ∧
    (p.createNode l b pid).2.recordSteps = true ∧
    (p.createNode l b pid).1 = TreeNode.mk (p.nodeID + 1) l .nil b := by
  refine ⟨?_, ?_, ?_, rfl⟩ <;> rw [createNode_snd_eq] <;> dsimp only <;> rw [hrec]
  rw [if_pos rfl]

theorem advance_steps (q : Parser) : q.advance.steps = q.steps ∧
    q.advance.nodeID = q.nodeID ∧ q.advance.recordSteps = q.recordSteps := by
  unfold Parser.advance
  split <;> exact ⟨rfl, rfl, rfl⟩

theorem matchTerminal_ok {p s1 : Parser} {node : TreeNode} {sym : GoStr} {pid : Int}
    (h : p.matchTerminal sym pid = (.ok node, s1)) (hrec : p.recordSteps = true) :
    node = TreeNode.mk (p.nodeID + 1) p.current.Value .nil true ∧
    s1.nodeID = p.nodeID + 1 ∧
    s1.steps = p.steps ++
      [⟨strBytes "add", buildStepDescription p.current.Value true, p.nodeID + 1, pid⟩] ∧
    s1.recordSteps = true := by
  unfold Parser.matchTerminal at h
  split at h
  · rw [Prod.mk.injEq] at h
    obtain ⟨h1, h2⟩ := h
    rw [Except.ok.injEq] at h1
    have hcn := createNode_record p p.current.Value true pid hrec
    have hadv := advance_steps (p.createNode p.current.Value true pid).2
    refine ⟨?_, ?_, ?_, ?_⟩
    · rw [← h1, hcn.2.2.2]
    · rw [← h2, hadv.2.1, hcn.2.1]
    · rw [← h2, hadv.1, hcn.1]
    · rw [← h2, hadv.2.2, hcn.2.2.1]
  · exact absurd h (by simp)

theorem parseAlternativeAux_steps
    (recNT : GoStr → Int → Parser → Except (List Nat) TreeNode × Parser)
    (hrecPres : ∀ sym pid s, StPres s (recNT sym pid s).2) (hrec : NTStepsOK recNT) :
    ∀ (syms : List GoStr) (pid : Int) (s : Parser) (children : TreeList) (s2 : Parser),
      parseAlternativeAux recNT syms pid s = (.ok children, s2) → s.recordSteps = true →
      s2.steps = s.steps ++ stepsOfL pid children ∧
      ∃ m, chkL s.nodeID children = some m ∧ m ≤ s2.nodeID := by
  intro syms
  induction syms with
  | nil =>
    intro pid s children s2 h hrecord
    rw [parseAlternativeAux, Prod.mk.injEq] at h
    obtain ⟨h1, h2⟩ := h
    rw [Except.ok.injEq] at h1
    subst h1 h2
    exact ⟨by rw [stepsOfL, List.append_nil], s.nodeID, by rw [chkL], le_refl _⟩
  | cons sym rest ih =>
    intro pid s children s2 h hrecord
    rw [parseAlternativeAux] at h
    split at h
    · split at h
      next children2 p2 heq =>
        rw [Prod.mk.injEq] at h
        obtain ⟨h1, h2⟩ := h
        rw [Except.ok.injEq] at h1
        subst h2
        have hcn := createNode_record s (strBytes "ε") true pid hrecord
        obtain ⟨hsteps, m, hchk, hm⟩ := ih pid _ children2 p2 heq hcn.2.2.1
        subst h1
        constructor
        · rw [hsteps, hcn.1, List.append_assoc, hcn.2.2.2, stepsOfL, stepsOf, stepsOfL]
        · refine ⟨m, ?_, hm⟩
          rw [hcn.2.2.2, chkL, chkT, if_pos (by omega), chkL]
          rw [hcn.2.1] at hchk
          exact hchk
      next e p2 heq => exact absurd h (by simp)
    · split at h
      · split at h
        next node p1 heq1 =>
          split at h
          next children2 p2 heq2 =>
            rw [Prod.mk.injEq] at h
            obtain ⟨h1, h2⟩ := h
            rw [Except.ok.injEq] at h1
            subst h2
            obtain ⟨hnode, hnid, hsteps1, hrec1⟩ := matchTerminal_ok heq1 hrecord
            obtain ⟨hsteps, m, hchk, hm⟩ := ih pid p1 children2 p2 heq2 hrec1
            subst h1
            constructor
            · rw [hsteps, hsteps1, List.append_assoc, stepsOfL, hnode, stepsOf, stepsOfL]
            · refine ⟨m, ?_, hm⟩
              rw [chkL, hnode, chkT, if_pos (by omega), chkL]
              rw [hnid] at hchk
              exact hchk
          next e p2 heq2 => exact absurd h (by simp)
        next e p1 heq1 => exact absurd h (by simp)
      · split at h
        next node p1 heq1 =>
          split at h
          next children2 p2 heq2 =>
            rw [Prod.mk.injEq] at h
            obtain ⟨h1, h2⟩ := h
            rw [Except.ok.injEq] at h1
            subst h2
            have hpres := hrecPres sym pid s
            rw [heq1] at hpres
            obtain ⟨hsteps1, m1, hchk1, hm1⟩ := hrec sym pid s node p1 heq1 hrecord
            obtain ⟨hsteps, m, hchk, hm⟩ := ih pid p1 children2 p2 heq2
              (by rw [hpres.record_eq]; exact hrecord)
            subst h1
            constructor
            · rw [hsteps, hsteps1, List.append_assoc, stepsOfL]
            · obtain ⟨m3, hchk3, hm3, _⟩ := chkL_weaken hm1 hchk
              refine ⟨m3, ?_, ?_⟩
              · rw [chkL, hchk1]
                exact hchk3
              · exact le_trans hm3 hm
          next e p2 heq2 => exact absurd h (by simp)
        next e p1 heq1 => exact absurd h (by simp)

theorem tryAlternativesAux_steps
    (recNT : GoStr → Int → Parser → Except (List Nat) TreeNode × Parser)
    (hrecPres : ∀ sym pid s, StPres s (recNT sym pid s).2) (hrec : NTStepsOK recNT)
    (symbol : GoStr) (i : Int) (l : List Nat) (b : Bool) :
    ∀ (alts : List (List GoStr)) (s : Parser) (nd : TreeNode) (s2 : Parser),
      tryAlternativesAux recNT symbol (.mk i l .nil b) alts s = (.ok nd, s2) →
      s.recordSteps = true →
      ∃ children m2, nd = TreeNode.mk i l children b ∧
        s2.steps = s.steps ++ stepsOfL i children ∧
        chkL s.nodeID children = some m2 ∧ m2 ≤ s2.nodeID := by
  intro alts
  induction alts with
  | nil =>
    intro s nd s2 h _
    rw [tryAlternativesAux] at h
    exact absurd h (by simp)
  | cons alt rest ih =>
    intro s nd s2 h hrecord
    rw [tryAlternativesAux] at h
    split at h
    next children p1 heq =>
      rw [Prod.mk.injEq] at h
      obtain ⟨h1, h2⟩ := h
      rw [Except.ok.injEq] at h1
      subst h2
      obtain ⟨hsteps, m, hchk, hm⟩ := parseAlternativeAux_steps recNT hrecPres hrec alt
        (TreeNode.mk i l .nil b).ID s children p1 heq hrecord
      exact ⟨children, m, by rw [← h1]; rfl, hsteps, hchk, hm⟩
    next e p1 heq =>
      have hp := parseAlternativeAux_stPres recNT hrecPres alt (TreeNode.mk i l .nil b).ID s
      rw [heq] at hp
      obtain ⟨children, m2, hnd, hsteps, hchk, hm⟩ := ih _ nd s2 h
        (by show p1.recordSteps = true; rw [hp.record_eq]; exact hrecord)
      have htrunc : p1.steps.take s.steps.length = s.steps := prefix_take_eq hp.steps_prefix
      rw [show ({ p1 with pos := s.pos, steps := p1.steps.take s.steps.length } : Parser).steps =
        p1.steps.take s.steps.length from rfl, htrunc] at hsteps
      obtain ⟨m3, hchk3, hm3, _⟩ := chkL_weaken hp.nodeID_le hchk
      exact ⟨children, m3, hnd, hsteps, hchk3, le_trans hm3 hm⟩

theorem parseNonTerminal_stepsOK : ∀ (fuel : Nat), NTStepsOK (parseNonTerminal fuel) := by
  intro fuel
  induction fuel with
  | zero =>
    intro sym pid s nd s2 h _
    rw [parseNonTerminal] at h
    exact absurd h (by simp)
  | succ fuel ih =>
    intro sym pid s nd s2 h hrecord
    rw [parseNonTerminal] at h
    split at h
    · exact absurd h (by simp)
    next prod heq =>
      have hcn := createNode_record s (strGoBytes sym) false pid hrecord
      rw [hcn.2.2.2] at h
      obtain ⟨children, m2, hnd, hsteps, hchk, hm⟩ := tryAlternativesAux_steps
        (parseNonTerminal fuel) (parseNonTerminal_stPres fuel) ih sym (s.nodeID + 1)
        (strGoBytes sym) false prod.Body _ nd s2 h hcn.2.2.1
      constructor
      · rw [hsteps, hcn.1, List.append_assoc, hnd, stepsOf]
        rfl
      · refine ⟨m2, ?_, hm⟩
        rw [hnd, chkT, if_pos (by omega)]
        rw [hcn.2.1] at hchk
        exact hchk

/-- C1: step/tree replay isomorphism.  Whenever Parse with step
recording on succeeds, replaying the full recorded step log in order —
creating one node per step with id = step.NodeID, its label and terminal
flag decoded from the step's description text, attached under the node
whose id equals step.ParentID, treated as root when ParentID is the
sentinel -1 — reconstructs exactly the returned parse tree (same shape,
labels, and terminal flags). -/
theorem claim1 (p : Parser) (input : List Nat) (fuel : Nat)
    (h : (p.Parse input true fuel).1.Success = true) :
    replaySteps ((p.Parse input true fuel).1.Steps) = (p.Parse input true fuel).1.Tree := by
  unfold Parser.Parse at h ⊢
  dsimp only at h ⊢
  by_cases hstart : p.grammar.StartSymbol = []
  · rw [if_pos hstart] at h
    simp at h
  · rw [if_neg hstart] at h ⊢
    rcases hE : parseNonTerminal fuel p.grammar.StartSymbol (-1)
        ⟨p.grammar, Tokenize input, 0, 0, [], true⟩ with ⟨r, p1⟩
    cases r with
    | error e =>
      rw [hE] at h
      simp at h
    | ok tree =>
      rw [hE] at h
      dsimp only at h ⊢
      by_cases heof : (p1.current.typ == TokenType.EOF) = true
      · rw [if_pos heof]
        dsimp only
        obtain ⟨hsteps, m, hchk, hm⟩ := parseNonTerminal_stepsOK fuel
          p.grammar.StartSymbol (-1) _ tree p1 hE rfl
        rw [hsteps, List.nil_append]
        exact replay_full hchk
      · rw [if_neg heof] at h
        simp at h

/-- Witness for C1: with grammar `F -> number` and input "2", recording
on, the parse succeeds and replaying its step log yields exactly the
returned tree. -/
theorem claim1_witness :
    ((NewParser (ParseGrammar "F -> number")).Parse (strBytes "2") true 10).1.Success = true ∧
    replaySteps (((NewParser (ParseGrammar "F -> number")).Parse (strBytes "2") true 10).1.Steps) =
      ((NewParser (ParseGrammar "F -> number")).Parse (strBytes "2") true 10).1.Tree :=
  ⟨rfl, claim1 (NewParser (ParseGrammar "F -> number")) (strBytes "2") 10 rfl⟩

end PTV
